import Mathlib

/-!
# lotr-tcg-crawler: a shallow embedding of `main.go`

Go strings are modelled as Lean strings (sequences of Unicode scalar values);
the library routines the program calls (`strings`, `regexp`, `fmt`,
`path/filepath`) are modelled on `List Char`, the program's own functions on
`String`.  The HTML parser and CSS selection of `goquery` are not modelled:
a parsed page is represented by the results of the four queries
`ScrapeLOTRCard` makes on it.
-/

namespace LotrCrawler

/-! ## Character classes -/

/-- The class `\d` (and `[0-9]`) of Go regular expressions. -/
def isDigit (c : Char) : Bool := 48 ≤ c.toNat && c.toNat ≤ 57

/-- The class `[A-Z]`. -/
def isUpperAZ (c : Char) : Bool := 65 ≤ c.toNat && c.toNat ≤ 90

/-- The class `[a-z0-9]`. -/
def isLowerAlnum (c : Char) : Bool :=
  (97 ≤ c.toNat && c.toNat ≤ 122) || (48 ≤ c.toNat && c.toNat ≤ 57)

/-- The class `[^a-z0-9]` of `normalizeKey` and `sanitizeFilename`. -/
def notLowerAlnum (c : Char) : Bool := !isLowerAlnum c

/-- The class `\s` of Go regular expressions (RE2 syntax): `[\t\n\f\r ]`. -/
def isReSpace (c : Char) : Bool :=
  c.toNat = 9 || c.toNat = 10 || c.toNat = 12 || c.toNat = 13 || c.toNat = 32

/-- Go `unicode.IsSpace`: the characters `strings.TrimSpace` removes, namely
`\t \n \v \f \r`, space, U+0085, U+00A0 and the other code points with the
Unicode White_Space property. -/
def isUnicodeSpace (c : Char) : Bool :=
  (9 ≤ c.toNat && c.toNat ≤ 13) || c.toNat = 32 || c.toNat = 0x85 || c.toNat = 0xA0 ||
  c.toNat = 0x1680 || (0x2000 ≤ c.toNat && c.toNat ≤ 0x200A) || c.toNat = 0x2028 ||
  c.toNat = 0x2029 || c.toNat = 0x202F || c.toNat = 0x205F || c.toNat = 0x3000

/-- The four characters the specification lists as whitespace:
space, tab, newline and carriage return. -/
def isSpecWhitespace (c : Char) : Bool :=
  c.toNat = 32 || c.toNat = 9 || c.toNat = 10 || c.toNat = 13

/-! ## Library routines -/

/-- Go `unicode.ToLower` on one rune: ASCII is handled inline (`A`-`Z` are
shifted by 32, every other ASCII rune is kept), any other rune is looked up in
the Unicode case tables, which are the parameter `tbl`. -/
def toLowerRune (tbl : Char → Char) (c : Char) : Char :=
  if c.toNat ≤ 127 then
    if 65 ≤ c.toNat ∧ c.toNat ≤ 90 then Char.ofNat (c.toNat + 32) else c
  else tbl c

/-- Go `strings.ToLower`: every rune mapped through `unicode.ToLower`. -/
def stringsToLower (tbl : Char → Char) (s : List Char) : List Char :=
  s.map (toLowerRune tbl)

/-- `regexp.MustCompile("C+").ReplaceAllString(s, rep)` for a character class
`C` given by `p`: a left-to-right scan in which every maximal run of
characters of the class is replaced by one copy of `rep`.  The flag tells
whether the previous character belonged to a run already replaced. -/
def replaceRuns (p : Char → Bool) (rep : List Char) : Bool → List Char → List Char
  | _, [] => []
  | inRun, c :: cs =>
    if p c then
      if inRun then replaceRuns p rep true cs else rep ++ replaceRuns p rep true cs
    else c :: replaceRuns p rep false cs

/-- Go `strings.TrimFunc`: drop the leading and the trailing characters that
satisfy `p`. -/
def trimFunc (p : Char → Bool) (s : List Char) : List Char :=
  (s.dropWhile p).rdropWhile p

/-- Go `strings.TrimSpace`. -/
def stringsTrimSpace (s : List Char) : List Char := trimFunc isUnicodeSpace s

/-- Go `strings.Trim(s, "_")`. -/
def trimUnderscore (s : List Char) : List Char := trimFunc (fun c => c == '_') s

/-- Go `strings.ReplaceAll(s, "'", "")`: every apostrophe (U+0027) removed. -/
def removeApostrophes (s : List Char) : List Char :=
  s.filter (fun c => c != Char.ofNat 39)

/-- Go `strings.Split(s, "(")[0]`: the text before the first `(`, all of `s`
when there is none. -/
def beforeParen (s : List Char) : List Char := s.takeWhile (fun c => c != '(')

/-- Go `fmt.Sprintf("%0<w>s", s)`: `s` left-padded with `0` to at least `w`
characters; a longer `s` is returned unchanged. -/
def padZero (w : Nat) (s : List Char) : List Char :=
  List.replicate (w - s.length) '0' ++ s

/-- Go `fmt.Sprintf("%0<w>d", n)` for a non-negative `n`. -/
def padZeroNat (w n : Nat) : List Char := padZero w (Nat.repr n).data

/-- An attempt to match `(\d+)([A-Z])(\d+)` at the start of `s`.  Both digit
runs are greedy; the first one cannot be shortened because the character
after it has to be a capital letter. -/
def matchMetaAt (s : List Char) : Option (List Char × Char × List Char) :=
  let d1 := s.takeWhile isDigit
  if d1 = [] then none
  else
    match s.dropWhile isDigit with
    | [] => none
    | u :: rest =>
      if isUpperAZ u then
        let d3 := rest.takeWhile isDigit
        if d3 = [] then none else some (d1, u, d3)
      else none

/-- `regexp.MustCompile("(\d+)([A-Z])(\d+)").FindStringSubmatch(s)`: the three
captures of the leftmost match, `none` when the slice returned is empty. -/
def findMeta : List Char → Option (List Char × Char × List Char)
  | [] => none
  | c :: cs =>
    match matchMetaAt (c :: cs) with
    | some m => some m
    | none => findMeta cs

/-- The backward scan of Go `filepath.Ext` over the reversed path: stop with
no extension at a separator, return the suffix at the first dot met. -/
def extScan : List Char → List Char → List Char
  | [], _ => []
  | c :: cs, acc =>
    if c = '/' then []
    else if c = '.' then '.' :: acc
    else extScan cs (c :: acc)

/-- Go `filepath.Ext` (Unix): the suffix beginning at the final dot of the
final `/`-separated element of the path, empty when that element has no dot. -/
def filepathExt (path : List Char) : List Char := extScan path.reverse []

/-- Go `strings.Join(elems, "/")`. -/
def joinSlash : List (List Char) → List Char
  | [] => []
  | [e] => e
  | e :: es => e ++ '/' :: joinSlash es

/-- The elements of a path between its `/` separators. -/
def splitSlash : List Char → List (List Char)
  | [] => [[]]
  | c :: cs =>
    if c = '/' then [] :: splitSlash cs
    else
      match splitSlash cs with
      | [] => [[c]]
      | h :: t => (c :: h) :: t

/-- One path element handled by `filepath.Clean`; `st` holds the elements
kept so far, the last one first.  Empty and `.` elements are dropped, `..`
removes the element before it, is dropped at the root, and is kept at the
start of a relative path. -/
def cleanStep (rooted : Bool) (st : List (List Char)) (e : List Char) : List (List Char) :=
  if e = [] ∨ e = ['.'] then st
  else if e = ['.', '.'] then
    match st with
    | [] => if rooted then [] else [e]
    | top :: rest => if top = ['.', '.'] then e :: st else rest
  else e :: st

/-- The text `filepath.Clean` returns for a stack of kept elements. -/
def renderPath (rooted : Bool) (st : List (List Char)) : List Char :=
  let body := joinSlash st.reverse
  if rooted then '/' :: body else if body = [] then ['.'] else body

/-- Go `filepath.Clean` (Unix), following its documented rules: multiple
separators become one, `.` elements are removed, an inner `..` is removed
together with the element before it, `..` directly under the root is removed,
and the empty path becomes `.`. -/
def filepathClean (p : List Char) : List Char :=
  let rooted := p.head? == some '/'
  renderPath rooted ((splitSlash p).foldl (cleanStep rooted) [])

/-- Go `filepath.Join` (Unix): leading empty elements are ignored, the rest
is joined with `/` and cleaned; no non-empty element gives the empty string. -/
def filepathJoin : List (List Char) → List Char
  | [] => []
  | e :: es =>
    if e = [] then filepathJoin es else filepathClean (joinSlash (e :: es))

/-! ## Text normalizers of `main.go` -/

/-- `normalizeSpaces`: `strings.TrimSpace(spaceRe.ReplaceAllString(s, " "))`
with `spaceRe = \s+`. -/
def normalizeSpaces (s : String) : String :=
  ⟨stringsTrimSpace (replaceRuns isReSpace [' '] false s.data)⟩

/-- `normalizeKey`: lower-case, replace the matches of `[^a-z0-9]+` by `_`,
trim `_`. -/
def normalizeKey (tbl : Char → Char) (key : String) : String :=
  let k := stringsToLower tbl key.data
  let k := replaceRuns notLowerAlnum ['_'] false k
  ⟨trimUnderscore k⟩

/-- `sanitizeFilename`: lower-case, delete apostrophes, replace the matches of
`[^a-z0-9]+` by `_`, trim `_`. -/
def sanitizeFilename (tbl : Char → Char) (s : String) : String :=
  let s := stringsToLower tbl s.data
  let s := removeApostrophes s
  let s := replaceRuns notLowerAlnum ['_'] false s
  ⟨trimUnderscore s⟩

/-- The normalizer as the specification words it: every maximal run of space,
tab, newline and carriage return becomes one space, then leading and trailing
spaces are removed. -/
def specNormalizeSpaces (s : String) : String :=
  ⟨trimFunc (fun c => c == ' ') (replaceRuns isSpecWhitespace [' '] false s.data)⟩

/-! ## Pattern matchers used to state the invariants -/

/-- Whole-string match of `[a-z0-9]+(_[a-z0-9]+)*`, as the automaton of the
pattern: the flag is `true` after a letter or digit (accepting) and `false`
at the start and after an underscore. -/
def snakeFrom : Bool → List Char → Bool
  | inWord, [] => inWord
  | inWord, c :: cs =>
    if isLowerAlnum c then snakeFrom true cs
    else if inWord && c == '_' then snakeFrom false cs
    else false

/-- Whole-string match of `[a-z0-9]+(_[a-z0-9]+)*`. -/
def matchesSnake (s : String) : Bool := snakeFrom false s.data

/-- Whole-string match of `[a-z0-9]+`, the flag telling whether a character
has been read. -/
def alnumFrom : Bool → List Char → Bool
  | seen, [] => seen
  | _, c :: cs => isLowerAlnum c && alnumFrom true cs

/-- The automaton of `[a-z0-9]+(_[a-z0-9]+)*\.[a-z0-9]+`, with the flag of
`snakeFrom` for the part before the dot. -/
def imagePathFrom : Bool → List Char → Bool
  | _, [] => false
  | inWord, c :: cs =>
    if isLowerAlnum c then imagePathFrom true cs
    else if inWord && c == '_' then imagePathFrom false cs
    else if inWord && c == '.' then alnumFrom false cs
    else false

/-- Whole-string match of `[a-z0-9]+(_[a-z0-9]+)*\.[a-z0-9]+`. -/
def matchesImagePath (s : String) : Bool := imagePathFrom false s.data

/-- Every character is of `[a-z0-9]` or an underscore. -/
def SlugChars (l : List Char) : Prop := ∀ c ∈ l, isLowerAlnum c = true ∨ c = '_'

/-- No two underscores are adjacent. -/
def NoDoubleUnderscore (l : List Char) : Prop :=
  List.Chain' (fun a b => ¬ (a = '_' ∧ b = '_')) l

/-- Whole-string match of `[0-9]{n}`. -/
def matchesDigits (n : Nat) (s : String) : Bool := s.data.length == n && s.data.all isDigit

/-! ## Data model -/

/-- The Go map `map[string]string`, as an association list with one entry per
key. -/
abbrev Props := List (String × String)

/-- The map assignment `m[k] = v`: the entry of `k` is overwritten when there
is one, otherwise a new entry is added. -/
def mapSet : Props → String → String → Props
  | [], k, v => [(k, v)]
  | (k0, v0) :: rest, k, v =>
    if k0 = k then (k, v) :: rest else (k0, v0) :: mapSet rest k v

/-- The struct `CardData`. -/
structure CardData where
  CardNo : String
  ImageName : String
  ImagePath : String
  ImageURL : String
  SetNo : String
  Title : String
  Props : Props
  deriving DecidableEq, Repr

/-- One `tr` of `table.inline`: the texts of `s.Find("td.col0")` and
`s.Find("td.col1")`. -/
structure Row where
  col0 : String
  col1 : String
  deriving DecidableEq, Repr

/-- A parsed page, as the results of the queries `ScrapeLOTRCard` makes:
`h1a` is `doc.Find("h1 a").First().Text()` (empty when nothing is selected),
`rows` are the rows of `doc.Find("table.inline tr")` in document order,
`imgSrc` is the `src` attribute of the first `p span a img.media` (`none`
when `Attr` reports that it does not exist) and `imgTitle` is the value
`Attr("title")` returns for it (empty when absent). -/
structure Document where
  h1a : String
  rows : List Row
  imgSrc : Option String
  imgTitle : String
  deriving DecidableEq, Repr

/-- The errors `ScrapeLOTRCard` returns. -/
inductive ScrapeError
  | parseHtml
  | h1NotFound
  | metadataNotFound (h1 : String)
  | imageSrcNotFound
  deriving DecidableEq, Repr

/-! ## The extractor -/

/-- The body of the `Each` callback that fills `props` from one table row. -/
def addRow (tbl : Char → Char) (props : Props) (s : Row) : Props :=
  let key : String := ⟨stringsTrimSpace s.col0.data⟩
  let val : String := ⟨stringsTrimSpace s.col1.data⟩
  if key = "" ∨ val = "" then props
  else mapSet props (normalizeKey tbl key) (normalizeSpaces val)

/-- `ScrapeLOTRCard(r, url)`; `r` is `none` when the reader cannot be parsed. -/
def ScrapeLOTRCard (tbl : Char → Char) (r : Option Document) (url : String) :
    Except ScrapeError CardData :=
  match r with
  | none => .error .parseHtml
  | some doc =>
    let h1 : String := ⟨stringsTrimSpace doc.h1a.data⟩
    if h1 = "" then .error .h1NotFound
    else
      let title : String := ⟨stringsTrimSpace (beforeParen h1.data)⟩
      match findMeta h1.data with
      | none => .error (.metadataNotFound h1)
      | some (m1, _, m3) =>
        let setNo : String := ⟨padZero 2 m1⟩
        let cardNo : String := ⟨padZero 3 m3⟩
        let props := doc.rows.foldl (addRow tbl) []
        match doc.imgSrc with
        | none => .error .imageSrcNotFound
        | some src =>
          let titleAttr := doc.imgTitle
          let fullURL := url ++ src
          let imagePath := sanitizeFilename tbl title ++ ⟨filepathExt src.data⟩
          .ok { Title := title, SetNo := setNo, CardNo := cardNo, ImageURL := fullURL,
                ImagePath := imagePath, ImageName := titleAttr, Props := props }

/-! ## The serializer -/

/-- What `http.Get` returns: an error, or a response with its status code
and its body (`none` for a body that cannot be parsed as HTML). -/
inductive Response
  | transportError
  | status (code : Nat) (body : Option Document)
  deriving DecidableEq, Repr

/-- The network and file system of one run: what a GET returns, which
file-system calls succeed, and the order in which `range` visits a map. -/
structure World where
  httpGet : String → Response
  mkdirAll : String → Bool
  create : String → Bool
  copy : String → Bool
  writeFile : String → String → Bool
  rangeOrder : Props → Props

/-- Go visits every entry of a map exactly once in a `range` loop, in an
order it does not specify. -/
def World.RangeLawful (w : World) : Prop := ∀ m : Props, (w.rangeOrder m).Perm m

/-- What the program does to the outside world. -/
inductive Event
  | get (url : String)
  | write (path : String) (content : String)
  deriving DecidableEq, Repr

/-- The name `WriteCard` gives the Markdown file. -/
def cardFilename (tbl : Char → Char) (card : CardData) : String :=
  card.SetNo ++ card.CardNo ++ "_" ++ sanitizeFilename tbl card.Title ++ ".md"

/-- The path `WriteCard` computes: `filepath.Join(filepath.Join(baseDir,
card.SetNo), filename)`. -/
def cardPath (tbl : Char → Char) (baseDir : String) (card : CardData) : String :=
  let dir := filepathJoin [baseDir.data, card.SetNo.data]
  ⟨filepathJoin [dir, (cardFilename tbl card).data]⟩

/-- The contents of the `strings.Builder` of `WriteCard`, the entries of
`card.Props` being visited in the order `order`. -/
def cardMarkdown (card : CardData) (order : Props) : String :=
  let b := ""
  let b := b ++ "---\n"
  let b := b ++ ("title: \"" ++ card.Title ++ "\"\n")
  let b := b ++ ("set_no: " ++ card.SetNo ++ "\n")
  let b := b ++ ("card_no: " ++ card.CardNo ++ "\n")
  let b := b ++ ("photo: \"[[./" ++ card.ImagePath ++ "|" ++ card.ImageName ++ "]]\"\n")
  let b := order.foldl (fun b kv => b ++ (kv.1 ++ ": \"" ++ kv.2 ++ "\"\n")) b
  let b := b ++ "amount:\n"
  let b := b ++ "value:\n"
  let b := b ++ "sold_price:\n"
  let b := b ++ "offer_price:\n"
  let b := b ++ "total:\n"
  let b := b ++ "currency: €\n"
  let b := b ++ "---\n\n"
  let b := b ++ ("# " ++ card.Title ++ "\n")
  b

/-- `WriteCard(baseDir, card)`: the events and the returned path, `none` for
an error. -/
def WriteCard (tbl : Char → Char) (w : World) (baseDir : String) (card : CardData) :
    List Event × Option String :=
  let dir : String := ⟨filepathJoin [baseDir.data, card.SetNo.data]⟩
  if w.mkdirAll dir = false then ([], none)
  else
    let path := cardPath tbl baseDir card
    let content := cardMarkdown card (w.rangeOrder card.Props)
    if w.writeFile path content = false then ([], none)
    else ([Event.write path content], some path)

/-! ## The image fetcher and the driver -/

/-- `DownloadImage(url, dir, filename)`. -/
def DownloadImage (w : World) (url dir filename : String) : List Event × Option String :=
  if w.mkdirAll dir = false then ([], none)
  else
    let path : String := ⟨filepathJoin [dir.data, filename.data]⟩
    match w.httpGet url with
    | .transportError => ([Event.get url], none)
    | .status _ _ =>
      if w.create path = false then ([Event.get url], none)
      else if w.copy path = false then ([Event.get url], none)
      else ([Event.get url], some path)

/-- How one pass through the body of the inner loop of `main` ends: with
`break`, or by going on to `i++` (a `continue` or the end of the body). -/
inductive Flow
  | brk
  | next
  deriving DecidableEq, Repr

/-- The URL of the page of card `i` of section `set`:
`fmt.Sprintf("%s/lotr%s", baseURL, fmt.Sprintf("%02d%03d", set, i))`. -/
def pageURL (baseURL : String) (set i : Nat) : String :=
  baseURL ++ "/lotr" ++ ⟨padZeroNat 2 set ++ padZeroNat 3 i⟩

/-- The body of the inner loop of `main` for section `set` and index `i`;
`tmpDir` is `"output"`. -/
def loopBody (tbl : Char → Char) (w : World) (baseURL : String) (set i : Nat) :
    List Event × Flow :=
  let tmpDir := "output"
  let url := pageURL baseURL set i
  match w.httpGet url with
  | .transportError => ([Event.get url], .brk)
  | .status code body =>
    if code ≠ 200 then ([Event.get url], .brk)
    else
      match ScrapeLOTRCard tbl body url with
      | .error _ => ([Event.get url], .brk)
      | .ok card =>
        let card := { card with CardNo := ⟨padZeroNat 3 i⟩, SetNo := ⟨padZeroNat 2 set⟩ }
        let setDir : String := ⟨filepathJoin [tmpDir.data, card.SetNo.data]⟩
        match DownloadImage w card.ImageURL setDir card.ImagePath with
        | (ev, none) => (Event.get url :: ev, .next)
        | (ev, some _) =>
          (Event.get url :: ev ++ (WriteCard tbl w tmpDir card).1, .next)

/-- The position of `main` in its two loops: the sections not finished yet,
the current one first, and the index of the next card. -/
structure DriverState where
  sets : List Nat
  i : Nat
  deriving DecidableEq, Repr

/-- The state in which `main` enters its loops. -/
def DriverState.init : DriverState := ⟨[1, 2, 3], 1⟩

/-- One pass through the inner loop body: after `break` the next section
starts at index 1, otherwise the index is incremented.  `none` when all
sections are done. -/
def step (tbl : Char → Char) (w : World) (baseURL : String) (s : DriverState) :
    Option (List Event × DriverState) :=
  match s.sets with
  | [] => none
  | set :: rest =>
    match loopBody tbl w baseURL set s.i with
    | (ev, .brk) => some (ev, ⟨rest, 1⟩)
    | (ev, .next) => some (ev, ⟨set :: rest, s.i + 1⟩)

/-- The page the driver requests next in a state, as section and index. -/
def nextPage (s : DriverState) : Option (Nat × Nat) :=
  match s.sets with
  | [] => none
  | set :: _ => some (set, s.i)

/-- The events of at most `fuel` passes through the loop body. -/
def run (tbl : Char → Char) (w : World) (baseURL : String) : Nat → DriverState → List Event
  | 0, _ => []
  | fuel + 1, s =>
    match step tbl w baseURL s with
    | none => []
    | some (ev, s1) => ev ++ run tbl w baseURL fuel s1

/-! ## Definitions used to state the properties -/

/-- The trimmed heading text of a page. -/
def headingOf (doc : Document) : String := ⟨stringsTrimSpace doc.h1a.data⟩

/-- A lower-case table that changes nothing, for evaluating the program on
ASCII text, where the table is never consulted. -/
def noTable : Char → Char := fun c => c

/-- The page of the canonical card of the test suite, with a table of three
rows. -/
def sampleDoc : Document :=
  { h1a := "The One Ring, Isildur's Bane (1R1)",
    rows := [⟨"Card Type", "The One Ring"⟩, ⟨"Rarity", "R"⟩, ⟨"Strength", "+1"⟩],
    imgSrc := some "/_media/foo.jpg", imgTitle := "The One Ring" }

/-- The card extracted from `sampleDoc` with the base URL of the test. -/
def sampleCard : CardData :=
  { Title := "The One Ring, Isildur's Bane", SetNo := "01", CardNo := "001",
    ImageURL := "https://whatever.com/_media/foo.jpg",
    ImagePath := "the_one_ring_isildurs_bane.jpg", ImageName := "The One Ring",
    Props := [("card_type", "The One Ring"), ("rarity", "R"), ("strength", "+1")] }

/-- The extension as the specification words it: the substring from the
final `.` of the whole string to its end, empty when there is no `.`. -/
def specExt : List Char → List Char
  | [] => []
  | c :: cs => if '.' ∈ cs then specExt cs else if c = '.' then c :: cs else []

/-- The text of a list of lines, each ended by a newline. -/
def unlines : List String → String
  | [] => ""
  | l :: ls => l ++ "\n" ++ unlines ls

/-- The front-matter line of one entry of `props`. -/
def propLine (kv : String × String) : String := kv.1 ++ ": \"" ++ kv.2 ++ "\""

/-- The lines of the file as the specification lays them out, the entries of
`props` being listed in the order `order`. -/
def specLines (card : CardData) (order : Props) : List String :=
  ["---", "title: \"" ++ card.Title ++ "\"", "set_no: " ++ card.SetNo,
    "card_no: " ++ card.CardNo,
    "photo: \"[[./" ++ card.ImagePath ++ "|" ++ card.ImageName ++ "]]\""] ++
  order.map propLine ++
  ["amount:", "value:", "sold_price:", "offer_price:", "total:", "currency: €", "---", "",
    "# " ++ card.Title]

/-- A world in which every call succeeds, the page of card 1 of section 1 is
`sampleDoc`, every other page answers 404, and maps are visited in reverse
order of insertion. -/
def sampleWorld : World :=
  { httpGet := fun u =>
      if u = "https://whatever.com/lotr01001" then .status 200 (some sampleDoc)
      else .status 404 none,
    mkdirAll := fun _ => true, create := fun _ => true, copy := fun _ => true,
    writeFile := fun _ _ => true, rangeOrder := fun m => m.reverse }

/-- A world in which every page answers 200 with the same body and every
file-system call succeeds. -/
def constWorld (body : Option Document) : World :=
  { httpGet := fun _ => .status 200 body,
    mkdirAll := fun _ => true, create := fun _ => true, copy := fun _ => true,
    writeFile := fun _ _ => true, rangeOrder := fun m => m }

/-- A page without heading. -/
def noHeadingDoc : Document := { h1a := "", rows := [], imgSrc := none, imgTitle := "" }

/-- A page whose heading has no metadata token. -/
def legendaryDoc : Document :=
  { h1a := "Legendary Card", rows := [], imgSrc := some "/_media/foo.jpg", imgTitle := "" }

/-- What `filepath.Clean` keeps on its stack: every element is non-empty, has
no separator and is not `.`; under the root there is no `..`, and in a
relative path every `..` has only `..` below it. -/
def StackOK (rooted : Bool) (st : List (List Char)) : Prop :=
  (∀ e ∈ st, e ≠ [] ∧ '/' ∉ e ∧ e ≠ ['.']) ∧
  (if rooted = true then ['.', '.'] ∉ st
   else List.Chain' (fun a b => a = ['.', '.'] → b = ['.', '.']) st)

/-- An ordinary path element: non-empty, without separator, neither `.` nor
`..`. -/
def PlainElem (e : List Char) : Prop :=
  e ≠ [] ∧ '/' ∉ e ∧ e ≠ ['.'] ∧ e ≠ ['.', '.']

/-! ## Lemmas on trimming -/

theorem dropWhile_head_not (p : Char → Bool) (l : List Char) (c : Char)
    (h : (l.dropWhile p).head? = some c) : p c = false := by
  have h0 := List.head?_dropWhile_not p l
  rw [h] at h0
  exact h0

theorem rdropWhile_last_not_some (p : Char → Bool) (l : List Char) (c : Char)
    (h : (l.rdropWhile p).getLast? = some c) : p c = false := by
  unfold List.rdropWhile at h
  rw [List.getLast?_reverse] at h
  exact dropWhile_head_not p _ c h

theorem prefix_head {l m : List Char} (hp : l <+: m) (c : Char)
    (h : l.head? = some c) : m.head? = some c := by
  obtain ⟨t, rfl⟩ := hp
  cases l with
  | nil => simp at h
  | cons a l1 => simpa using h

theorem trimFunc_head (p : Char → Bool) (l : List Char) (c : Char)
    (h : (trimFunc p l).head? = some c) : p c = false :=
  dropWhile_head_not p l c (prefix_head ( List.rdropWhile_prefix p _) c h)

theorem trimFunc_last (p : Char → Bool) (l : List Char) (c : Char)
    (h : (trimFunc p l).getLast? = some c) : p c = false :=
  rdropWhile_last_not_some p _ c h

theorem trimFunc_sub (p : Char → Bool) (l : List Char) : trimFunc p l <:+: l :=
  List.IsInfix.trans ( List.rdropWhile_prefix p _).isInfix (List.dropWhile_suffix p).isInfix

theorem trimFunc_mem (p : Char → Bool) (l : List Char) (c : Char)
    (h : c ∈ trimFunc p l) : c ∈ l :=
  (trimFunc_sub p l).subset h

theorem dropWhile_self_of_head (p : Char → Bool) (l : List Char)
    (h : ∀ c, l.head? = some c → p c = false) : l.dropWhile p = l := by
  cases l with
  | nil => rfl
  | cons a t =>
    have ha : p a = false := h a rfl
    simp [List.dropWhile, ha]

theorem rdropWhile_self_of_last (p : Char → Bool) (l : List Char)
    (h : ∀ c, l.getLast? = some c → p c = false) : l.rdropWhile p = l := by
  unfold List.rdropWhile
  rw [dropWhile_self_of_head p l.reverse (by simpa using h)]
  exact List.reverse_reverse l

theorem trimFunc_eq_self (p : Char → Bool) (l : List Char)
    (h1 : ∀ c, l.head? = some c → p c = false)
    (h2 : ∀ c, l.getLast? = some c → p c = false) : trimFunc p l = l := by
  unfold trimFunc
  rw [dropWhile_self_of_head p l h1, rdropWhile_self_of_last p l h2]

/-! ## The shape of a slug -/

theorem isLowerAlnum_ne_underscore {c : Char} (h : isLowerAlnum c = true) : c ≠ '_' := by
  intro hc
  subst hc
  revert h
  decide

theorem replaceRuns_shape (l : List Char) : ∀ b : Bool,
    SlugChars (replaceRuns notLowerAlnum ['_'] b l) ∧
    NoDoubleUnderscore (replaceRuns notLowerAlnum ['_'] b l) ∧
    (b = true → (replaceRuns notLowerAlnum ['_'] b l).head? ≠ some '_') := by
  induction l with
  | nil =>
    intro b
    simp [replaceRuns, SlugChars, NoDoubleUnderscore]
  | cons c cs ih =>
    intro b
    by_cases hc : isLowerAlnum c = true
    · have hp : notLowerAlnum c = false := by simp [notLowerAlnum, hc]
      obtain ⟨h1, h2, _⟩ := ih false
      have hne := isLowerAlnum_ne_underscore hc
      simp only [replaceRuns, hp, Bool.false_eq_true, if_false]
      refine ⟨?_, ?_, ?_⟩
      · intro x hx
        rcases List.mem_cons.1 hx with rfl | hx
        · exact Or.inl hc
        · exact h1 x hx
      · unfold NoDoubleUnderscore
        rw [List.chain'_cons']
        exact ⟨fun y _ hy => hne hy.1, h2⟩
      · intro _
        simpa using hne
    · have hp : notLowerAlnum c = true := by simp [notLowerAlnum, hc]
      obtain ⟨h1, h2, h3⟩ := ih true
      cases b with
      | true =>
        simp only [replaceRuns, hp, if_true]
        exact ⟨h1, h2, fun _ => h3 rfl⟩
      | false =>
        simp only [replaceRuns, hp, if_true, Bool.false_eq_true, if_false]
        refine ⟨?_, ?_, ?_⟩
        · intro x hx
          rcases List.mem_append.1 hx with hx | hx
          · exact Or.inr (by simpa using hx)
          · exact h1 x hx
        · unfold NoDoubleUnderscore
          show List.Chain' _ ('_' :: replaceRuns notLowerAlnum ['_'] true cs)
          rw [List.chain'_cons']
          exact ⟨fun y hy hyy => h3 rfl (by rw [hyy.2] at hy; simpa using hy), h2⟩
        · intro h
          cases h

theorem snakeFrom_of_shape (t : List Char) : ∀ b : Bool,
    SlugChars t → NoDoubleUnderscore t →
    (b = false → t.head? ≠ some '_') → t.getLast? ≠ some '_' →
    (b = true ∨ t ≠ []) → snakeFrom b t = true := by
  induction t with
  | nil =>
    intro b _ _ _ _ h
    rcases h with h | h
    · simpa [snakeFrom] using h
    · exact absurd rfl h
  | cons c cs ih =>
    intro b h1 h2 h3 h4 _
    have h1t : SlugChars cs := fun x hx => h1 x (List.mem_cons_of_mem _ hx)
    have h2t : NoDoubleUnderscore cs := List.Chain'.tail h2
    have h4t : cs.getLast? ≠ some '_' := by
      cases cs with
      | nil => simp
      | cons d ds => simpa [List.getLast?_cons_cons] using h4
    by_cases hc : isLowerAlnum c = true
    · simp only [snakeFrom, hc, if_true]
      exact ih true h1t h2t (fun h => by cases h) h4t (Or.inl rfl)
    · have hcu : c = '_' := by
        rcases h1 c (List.mem_cons_self _ _) with h | h
        · exact absurd h hc
        · exact h
      have hb : b = true := by
        cases b with
        | true => rfl
        | false => exact absurd (by simp [hcu]) (h3 rfl)
      subst hb
      have hcs : cs ≠ [] := by
        intro h
        subst h
        apply h4
        simp [hcu]
      have hhead : cs.head? ≠ some '_' := by
        intro h
        cases cs with
        | nil => simp at h
        | cons d ds =>
          have hd : d = '_' := by simpa using h
          have := List.Chain'.rel_head h2
          exact this ⟨hcu, hd⟩
      have hstep : snakeFrom true (c :: cs) = snakeFrom false cs := by
        rw [snakeFrom, if_neg hc]
        simp [hcu]
      rw [hstep]
      exact ih false h1t h2t (fun _ => hhead) h4t (Or.inr hcs)

theorem replaceRuns_fixed (t : List Char) : ∀ b : Bool,
    SlugChars t → NoDoubleUnderscore t → (b = true → t.head? ≠ some '_') →
    replaceRuns notLowerAlnum ['_'] b t = t := by
  induction t with
  | nil => intro b _ _ _; rfl
  | cons c cs ih =>
    intro b h1 h2 h3
    have h1t : SlugChars cs := fun x hx => h1 x (List.mem_cons_of_mem _ hx)
    have h2t : NoDoubleUnderscore cs := List.Chain'.tail h2
    by_cases hc : isLowerAlnum c = true
    · have hp : notLowerAlnum c = false := by simp [notLowerAlnum, hc]
      simp only [replaceRuns, hp, Bool.false_eq_true, if_false]
      rw [ih false h1t h2t (fun h => by cases h)]
    · have hp : notLowerAlnum c = true := by simp [notLowerAlnum, hc]
      have hcu : c = '_' := by
        rcases h1 c (List.mem_cons_self _ _) with h | h
        · exact absurd h hc
        · exact h
      have hb : b = false := by
        cases b with
        | false => rfl
        | true => exact absurd (by simp [hcu]) (h3 rfl)
      subst hb
      have hhead : cs.head? ≠ some '_' := by
        intro h
        cases cs with
        | nil => simp at h
        | cons d ds =>
          have hd : d = '_' := by simpa using h
          exact List.Chain'.rel_head h2 ⟨hcu, hd⟩
      simp only [replaceRuns, hp, if_true, Bool.false_eq_true, if_false]
      rw [ih true h1t h2t (fun _ => hhead), hcu]
      rfl

theorem toLowerRune_fixed (tbl : Char → Char) {c : Char}
    (h : isLowerAlnum c = true ∨ c = '_') : toLowerRune tbl c = c := by
  have hn : c.toNat ≤ 127 ∧ ¬ (65 ≤ c.toNat ∧ c.toNat ≤ 90) := by
    rcases h with h | h
    · simp only [isLowerAlnum, Bool.or_eq_true, Bool.and_eq_true, decide_eq_true_eq] at h
      omega
    · subst h
      decide
  simp [toLowerRune, hn.1, hn.2]

theorem stringsToLower_fixed (tbl : Char → Char) (t : List Char) (h : SlugChars t) :
    stringsToLower tbl t = t := by
  unfold stringsToLower
  conv_rhs => rw [← List.map_id t]
  exact List.map_congr_left (fun c hc => by simpa using toLowerRune_fixed tbl (h c hc))

theorem removeApostrophes_fixed (t : List Char) (h : SlugChars t) :
    removeApostrophes t = t := by
  unfold removeApostrophes
  rw [List.filter_eq_self]
  intro c hc
  rcases h c hc with h | h
  · have : c ≠ Char.ofNat 39 := by
      intro he
      subst he
      revert h
      decide
    simpa using this
  · subst h
    decide

theorem slug_shape (l : List Char) :
    SlugChars (trimUnderscore (replaceRuns notLowerAlnum ['_'] false l)) ∧
    NoDoubleUnderscore (trimUnderscore (replaceRuns notLowerAlnum ['_'] false l)) ∧
    (trimUnderscore (replaceRuns notLowerAlnum ['_'] false l)).head? ≠ some '_' ∧
    (trimUnderscore (replaceRuns notLowerAlnum ['_'] false l)).getLast? ≠ some '_' := by
  obtain ⟨h1, h2, _⟩ := replaceRuns_shape l false
  refine ⟨?_, ?_, ?_, ?_⟩
  · intro c hc
    exact h1 c (trimFunc_mem _ _ c hc)
  · exact List.Chain'.infix h2 (trimFunc_sub _ _)
  · intro h
    have := trimFunc_head _ _ _ h
    simp at this
  · intro h
    have := trimFunc_last _ _ _ h
    simp at this

theorem trimUnderscore_fixed (t : List Char) (h3 : t.head? ≠ some '_')
    (h4 : t.getLast? ≠ some '_') : trimUnderscore t = t := by
  apply trimFunc_eq_self
  · intro c hc
    have : c ≠ '_' := fun h => h3 (h ▸ hc)
    simpa using this
  · intro c hc
    have : c ≠ '_' := fun h => h4 (h ▸ hc)
    simpa using this

theorem slug_snake (t : List Char) (h1 : SlugChars t) (h2 : NoDoubleUnderscore t)
    (h3 : t.head? ≠ some '_') (h4 : t.getLast? ≠ some '_') :
    t = [] ∨ snakeFrom false t = true := by
  by_cases ht : t = []
  · exact Or.inl ht
  · exact Or.inr (snakeFrom_of_shape t false h1 h2 (fun _ => h3) h4 (Or.inr ht))

theorem normalizeKey_fixed (tbl : Char → Char) (t : List Char) (h1 : SlugChars t)
    (h2 : NoDoubleUnderscore t) (h3 : t.head? ≠ some '_') (h4 : t.getLast? ≠ some '_') :
    normalizeKey tbl ⟨t⟩ = ⟨t⟩ := by
  simp only [normalizeKey]
  rw [stringsToLower_fixed tbl t h1, replaceRuns_fixed t false h1 h2 (fun h => by cases h),
    trimUnderscore_fixed t h3 h4]

theorem sanitizeFilename_fixed (tbl : Char → Char) (t : List Char) (h1 : SlugChars t)
    (h2 : NoDoubleUnderscore t) (h3 : t.head? ≠ some '_') (h4 : t.getLast? ≠ some '_') :
    sanitizeFilename tbl ⟨t⟩ = ⟨t⟩ := by
  simp only [sanitizeFilename]
  rw [stringsToLower_fixed tbl t h1, removeApostrophes_fixed t h1,
    replaceRuns_fixed t false h1 h2 (fun h => by cases h), trimUnderscore_fixed t h3 h4]

theorem normalizeKey_idem (tbl : Char → Char) (s : String) :
    normalizeKey tbl (normalizeKey tbl s) = normalizeKey tbl s := by
  obtain ⟨h1, h2, h3, h4⟩ := slug_shape (stringsToLower tbl s.data)
  exact normalizeKey_fixed tbl _ h1 h2 h3 h4

theorem normalizeKey_snake (tbl : Char → Char) (s : String) :
    normalizeKey tbl s = "" ∨ matchesSnake (normalizeKey tbl s) = true := by
  obtain ⟨h1, h2, h3, h4⟩ := slug_shape (stringsToLower tbl s.data)
  rcases slug_snake _ h1 h2 h3 h4 with h | h
  · left
    show String.mk _ = String.mk []
    rw [h]
  · right
    exact h

theorem sanitizeFilename_snake (tbl : Char → Char) (s : String) :
    sanitizeFilename tbl s = "" ∨ matchesSnake (sanitizeFilename tbl s) = true := by
  obtain ⟨h1, h2, h3, h4⟩ := slug_shape (removeApostrophes (stringsToLower tbl s.data))
  rcases slug_snake _ h1 h2 h3 h4 with h | h
  · left
    show String.mk _ = String.mk []
    rw [h]
  · right
    exact h

/-- C9: `sanitizeFilename` is idempotent: applying it to its own result
changes nothing, for every string and every Unicode lower-case table. -/
theorem sanitizeFilename_idempotent (tbl : Char → Char) (s : String) :
    sanitizeFilename tbl (sanitizeFilename tbl s) = sanitizeFilename tbl s := by
  obtain ⟨h1, h2, h3, h4⟩ := slug_shape (removeApostrophes (stringsToLower tbl s.data))
  exact sanitizeFilename_fixed tbl _ h1 h2 h3 h4

/-! ## The extractor: what a successful run returns -/

theorem scrape_ok_inv (tbl : Char → Char) (r : Option Document) (url : String)
    (card : CardData) (h : ScrapeLOTRCard tbl r url = .ok card) :
    ∃ doc m1 u m3 src, r = some doc ∧ headingOf doc ≠ "" ∧
      findMeta (headingOf doc).data = some (m1, u, m3) ∧ doc.imgSrc = some src ∧
      card = { Title := ⟨stringsTrimSpace (beforeParen (headingOf doc).data)⟩,
               SetNo := ⟨padZero 2 m1⟩, CardNo := ⟨padZero 3 m3⟩,
               ImageURL := url ++ src,
               ImagePath := sanitizeFilename tbl
                 ⟨stringsTrimSpace (beforeParen (headingOf doc).data)⟩ ++ ⟨filepathExt src.data⟩,
               ImageName := doc.imgTitle,
               Props := doc.rows.foldl (addRow tbl) [] } := by
  cases r with
  | none => simp [ScrapeLOTRCard] at h
  | some doc =>
    simp only [ScrapeLOTRCard] at h
    split at h
    · cases h
    · rename_i hne
      split at h
      · cases h
      · rename_i m1 u m3 hm
        split at h
        · cases h
        · rename_i src hsrc
          injection h with h
          exact ⟨doc, m1, u, m3, src, rfl, hne, hm, hsrc, h.symm⟩

theorem mapSet_keys (P : String → Prop) (m : Props) (k v : String)
    (hm : ∀ kv ∈ m, P kv.1) (hk : P k) : ∀ kv ∈ mapSet m k v, P kv.1 := by
  induction m with
  | nil =>
    intro kv hkv
    simp only [mapSet, List.mem_singleton] at hkv
    rw [hkv]
    exact hk
  | cons e rest ih =>
    obtain ⟨k0, v0⟩ := e
    intro kv hkv
    simp only [mapSet] at hkv
    split at hkv
    · rcases List.mem_cons.1 hkv with h | h
      · rw [h]
        exact hk
      · exact hm kv (List.mem_cons_of_mem _ h)
    · rcases List.mem_cons.1 hkv with h | h
      · rw [h]
        exact hm (k0, v0) (List.mem_cons_self _ _)
      · exact ih (fun x hx => hm x (List.mem_cons_of_mem _ hx)) kv h

theorem addRow_keys (tbl : Char → Char) (P : String → Prop)
    (hP : ∀ s, P (normalizeKey tbl s)) (m : Props) (row : Row)
    (hm : ∀ kv ∈ m, P kv.1) : ∀ kv ∈ addRow tbl m row, P kv.1 := by
  simp only [addRow]
  split
  · exact hm
  · exact mapSet_keys P m _ _ hm (hP _)

theorem foldl_addRow_keys (tbl : Char → Char) (P : String → Prop)
    (hP : ∀ s, P (normalizeKey tbl s)) (rows : List Row) :
    ∀ m : Props, (∀ kv ∈ m, P kv.1) → ∀ kv ∈ rows.foldl (addRow tbl) m, P kv.1 := by
  induction rows with
  | nil => intro m hm; simpa using hm
  | cons row rest ih =>
    intro m hm
    simp only [List.foldl_cons]
    exact ih _ (addRow_keys tbl P hP m row hm)

/-- C2, as stated, fails: a row whose key cell is `???` (non-empty, no letter
or digit) and whose value is `x` puts the entry with the empty key into
`props`. -/
theorem props_key_counterexample :
    (ScrapeLOTRCard noTable
        (some { h1a := "The One Ring (1R1)", rows := [⟨"???", "x"⟩],
                imgSrc := some "/_media/foo.jpg", imgTitle := "" })
        "https://whatever.com").toOption.map (fun c => c.Props) = some [("", "x")] := by
  decide

/-- C2, amended: every key of `props` of a successfully extracted card is
a fixed point of `normalizeKey` and is either empty or matches
`[a-z0-9]+(_[a-z0-9]+)*`. -/
theorem props_keys_normalized (tbl : Char → Char) (r : Option Document) (url : String)
    (card : CardData) (h : ScrapeLOTRCard tbl r url = .ok card) :
    ∀ kv ∈ card.Props,
      normalizeKey tbl kv.1 = kv.1 ∧ (kv.1 = "" ∨ matchesSnake kv.1 = true) := by
  obtain ⟨doc, m1, u, m3, src, _, _, _, _, hcard⟩ := scrape_ok_inv tbl r url card h
  subst hcard
  exact foldl_addRow_keys tbl
    (fun k => normalizeKey tbl k = k ∧ (k = "" ∨ matchesSnake k = true))
    (fun s => ⟨normalizeKey_idem tbl s, normalizeKey_snake tbl s⟩) doc.rows []
    (fun kv hkv => by simp at hkv)

/-- The extractor run on the canonical page. -/
theorem sampleDoc_scrape :
    ScrapeLOTRCard noTable (some sampleDoc) "https://whatever.com" = .ok sampleCard := by
  rfl

/-- The amended C2 at the canonical card: its key `card_type` is a fixed point
of `normalizeKey` and matches the pattern. -/
theorem props_keys_normalized_witness :
    ScrapeLOTRCard noTable (some sampleDoc) "https://whatever.com" = .ok sampleCard ∧
    normalizeKey noTable "card_type" = "card_type" ∧
      ("card_type" = "" ∨ matchesSnake "card_type" = true) :=
  ⟨sampleDoc_scrape,
    props_keys_normalized noTable (some sampleDoc) "https://whatever.com" sampleCard
      sampleDoc_scrape ("card_type", "The One Ring") (by decide)⟩

/-! ## Set and card numbers -/

theorem matchMetaAt_digits (s m1 m3 : List Char) (u : Char)
    (h : matchMetaAt s = some (m1, u, m3)) :
    (∀ c ∈ m1, isDigit c = true) ∧ (∀ c ∈ m3, isDigit c = true) ∧ m1 ≠ [] ∧ m3 ≠ [] := by
  simp only [matchMetaAt] at h
  split at h
  · cases h
  · rename_i hd1
    split at h
    · cases h
    · rename_i u0 rest _
      split at h
      · split at h
        · cases h
        · rename_i hd3
          injection h with h
          injection h with h1 h2
          injection h2 with h2 h3
          subst h1
          subst h3
          exact ⟨fun c hc => (List.mem_takeWhile_imp hc), fun c hc => (List.mem_takeWhile_imp hc),
            hd1, hd3⟩
      · cases h

theorem findMeta_digits (s : List Char) : ∀ (m1 m3 : List Char) (u : Char),
    findMeta s = some (m1, u, m3) →
    (∀ c ∈ m1, isDigit c = true) ∧ (∀ c ∈ m3, isDigit c = true) ∧ m1 ≠ [] ∧ m3 ≠ [] := by
  induction s with
  | nil => intro m1 m3 u h; simp [findMeta] at h
  | cons c cs ih =>
    intro m1 m3 u h
    simp only [findMeta] at h
    split at h
    · rename_i m hm
      injection h with h
      subst h
      exact matchMetaAt_digits _ _ _ _ hm
    · exact ih m1 m3 u h

theorem padZero_digits (w : Nat) (m : List Char) (h : ∀ c ∈ m, isDigit c = true) :
    (padZero w m).all isDigit = true := by
  rw [List.all_eq_true]
  intro c hc
  rcases List.mem_append.1 hc with hc | hc
  · rw [(List.mem_replicate.1 hc).2]
    decide
  · exact h c hc

theorem padZero_length (w : Nat) (m : List Char) : (padZero w m).length = max w m.length := by
  simp only [padZero, List.length_append, List.length_replicate]
  omega

/-- C3, as stated, fails: the heading `Big Card (123R4567)` gives a `set_no`
of three characters and a `card_no` of four. -/
theorem set_no_width_counterexample :
    (ScrapeLOTRCard noTable
        (some { h1a := "Big Card (123R4567)", rows := [],
                imgSrc := some "/_media/foo.jpg", imgTitle := "" })
        "https://whatever.com").toOption.map (fun c => (c.SetNo, c.CardNo))
      = some ("123", "4567") := by
  decide

/-- C3, amended: for every page on which the extractor succeeds, `set_no`
and `card_no` are the first and third captures of the first match of
`(\d+)([A-Z])(\d+)` in the heading, left-padded with zeros to widths 2 and 3:
both are all decimal digits, `set_no` has `max 2 n1` characters and `card_no`
has `max 3 n3`, where `n1` and `n3` are the lengths of the captures. -/
theorem set_no_card_no_digits (tbl : Char → Char) (doc : Document) (url : String)
    (card : CardData) (h : ScrapeLOTRCard tbl (some doc) url = .ok card) :
    ∃ m1 u m3, findMeta (headingOf doc).data = some (m1, u, m3) ∧
      card.SetNo = ⟨padZero 2 m1⟩ ∧ card.CardNo = ⟨padZero 3 m3⟩ ∧
      card.SetNo.data.all isDigit = true ∧ card.SetNo.length = max 2 m1.length ∧
      card.CardNo.data.all isDigit = true ∧ card.CardNo.length = max 3 m3.length := by
  obtain ⟨doc1, m1, u, m3, src, hr, _, hm, _, hcard⟩ := scrape_ok_inv tbl _ url card h
  injection hr with hr
  subst hr
  obtain ⟨hd1, hd3, _, _⟩ := findMeta_digits _ m1 m3 u hm
  subst hcard
  exact ⟨m1, u, m3, hm, rfl, rfl, padZero_digits 2 m1 hd1, padZero_length 2 m1,
    padZero_digits 3 m3 hd3, padZero_length 3 m3⟩

/-- The amended C3 at the canonical card, heading `... (1R1)`. -/
theorem set_no_card_no_digits_witness :
    ∃ m1 u m3, findMeta (headingOf sampleDoc).data = some (m1, u, m3) ∧
      sampleCard.SetNo = ⟨padZero 2 m1⟩ ∧ sampleCard.CardNo = ⟨padZero 3 m3⟩ ∧
      sampleCard.SetNo.data.all isDigit = true ∧ sampleCard.SetNo.length = max 2 m1.length ∧
      sampleCard.CardNo.data.all isDigit = true ∧
      sampleCard.CardNo.length = max 3 m3.length :=
  set_no_card_no_digits noTable sampleDoc "https://whatever.com" sampleCard sampleDoc_scrape

/-! ## Which fields can be empty -/

theorem string_eq_empty_iff (s : String) : s = "" ↔ s.data = [] := by
  rw [String.ext_iff]

theorem string_append_eq_empty_iff (a b : String) : a ++ b = "" ↔ a = "" ∧ b = "" := by
  simp only [string_eq_empty_iff, String.data_append, List.append_eq_nil]

theorem trimFunc_eq_nil_of_head (p : Char → Bool) (c : Char) (t : List Char)
    (hc : p c = false) : trimFunc p (c :: t) ≠ [] := by
  unfold trimFunc
  rw [dropWhile_self_of_head p (c :: t) (fun d hd => by
    have : c = d := by simpa using hd
    rw [← this]; exact hc)]
  intro h
  rw [List.rdropWhile_eq_nil_iff] at h
  have := h c (List.mem_cons_self _ _)
  rw [hc] at this
  cases this

theorem title_empty_iff (h : List Char) (hne : h ≠ [])
    (hhead : ∀ c, h.head? = some c → isUnicodeSpace c = false) :
    stringsTrimSpace (beforeParen h) = [] ↔ h.head? = some '(' := by
  cases h with
  | nil => exact absurd rfl hne
  | cons c t =>
    by_cases hc : c = '('
    · subst hc
      simp [beforeParen, stringsTrimSpace, trimFunc, List.rdropWhile]
    · have h1 : beforeParen (c :: t) = c :: t.takeWhile (fun c => c != '(') := by
        simp [beforeParen, List.takeWhile_cons, hc]
      rw [h1]
      constructor
      · intro h0
        exact absurd h0 (trimFunc_eq_nil_of_head _ c _ (hhead c rfl))
      · intro h0
        exact absurd (by simpa using h0) hc

/-- C7, as stated, fails: for the heading `(1R1)` the extractor succeeds with
an empty title; with an empty base URL and an empty `src` attribute
`image_url` and `image_path` are empty as well. -/
theorem title_empty_counterexample :
    (ScrapeLOTRCard noTable
        (some { h1a := "(1R1)", rows := [], imgSrc := some "/_media/foo.jpg", imgTitle := "" })
        "https://whatever.com").toOption.map (fun c => c.Title) = some "" ∧
    (ScrapeLOTRCard noTable
        (some { h1a := "(1R1)", rows := [], imgSrc := some "", imgTitle := "" })
        "").toOption.map (fun c => (c.Title, c.ImageURL, c.ImagePath)) = some ("", "", "") := by
  decide

/-- C7, amended: for every page and base URL on which the extractor
succeeds, `set_no` and `card_no` are non-empty; `title` is empty exactly
when the trimmed heading begins with `(`; `image_url` is empty exactly when
the base URL and the scraped `src` are both empty; `image_path` is empty
exactly when `sanitizeFilename(title)` is empty and `src` has no extension. -/
theorem extracted_fields_nonempty (tbl : Char → Char) (doc : Document) (url : String)
    (card : CardData) (h : ScrapeLOTRCard tbl (some doc) url = .ok card) :
    card.SetNo ≠ "" ∧ card.CardNo ≠ "" ∧
    (card.Title = "" ↔ (headingOf doc).data.head? = some '(') ∧
    (card.ImageURL = "" ↔ url = "" ∧ doc.imgSrc = some "") ∧
    (card.ImagePath = "" ↔
      sanitizeFilename tbl card.Title = "" ∧
        ∀ src, doc.imgSrc = some src → filepathExt src.data = []) := by
  obtain ⟨doc1, m1, u, m3, src, hr, hne, hm, hsrc, hcard⟩ := scrape_ok_inv tbl _ url card h
  injection hr with hr
  subst hr
  subst hcard
  have hlen2 := padZero_length 2 m1
  have hlen3 := padZero_length 3 m3
  refine ⟨?_, ?_, ?_, ?_, ?_⟩
  · rw [Ne, string_eq_empty_iff]
    intro h0
    have h1 : padZero 2 m1 = [] := h0
    rw [h1] at hlen2
    simp only [List.length_nil] at hlen2
    omega
  · rw [Ne, string_eq_empty_iff]
    intro h0
    have h1 : padZero 3 m3 = [] := h0
    rw [h1] at hlen3
    simp only [List.length_nil] at hlen3
    omega
  · rw [string_eq_empty_iff]
    apply title_empty_iff
    · intro h0
      exact hne ((string_eq_empty_iff _).2 h0)
    · intro c hc
      exact trimFunc_head _ _ c hc
  · rw [string_append_eq_empty_iff, hsrc]
    constructor
    · rintro ⟨h1, h2⟩
      exact ⟨h1, by rw [h2]⟩
    · rintro ⟨h1, h2⟩
      injection h2 with h2
      exact ⟨h1, h2⟩
  · rw [string_append_eq_empty_iff, hsrc]
    constructor
    · rintro ⟨h1, h2⟩
      refine ⟨h1, ?_⟩
      intro s hs
      injection hs with hs
      subst hs
      exact (string_eq_empty_iff _).1 h2
    · rintro ⟨h1, h2⟩
      exact ⟨h1, (string_eq_empty_iff _).2 (h2 src rfl)⟩

/-- The amended C7 at the canonical card. -/
theorem extracted_fields_nonempty_witness :
    sampleCard.SetNo ≠ "" ∧ sampleCard.CardNo ≠ "" ∧
    (sampleCard.Title = "" ↔ (headingOf sampleDoc).data.head? = some '(') ∧
    (sampleCard.ImageURL = "" ↔ "https://whatever.com" = "" ∧ sampleDoc.imgSrc = some "") ∧
    (sampleCard.ImagePath = "" ↔
      sanitizeFilename noTable sampleCard.Title = "" ∧
        ∀ src, sampleDoc.imgSrc = some src → filepathExt src.data = []) :=
  extracted_fields_nonempty noTable sampleDoc "https://whatever.com" sampleCard
    sampleDoc_scrape

/-! ## The image file name -/

theorem alnumFrom_iff (e : List Char) : ∀ b : Bool,
    alnumFrom b e = true ↔ (b = true ∨ e ≠ []) ∧ ∀ c ∈ e, isLowerAlnum c = true := by
  induction e with
  | nil => intro b; simp [alnumFrom]
  | cons c cs ih =>
    intro b
    simp only [alnumFrom, Bool.and_eq_true, ih true]
    simp

theorem extScan_shape (l : List Char) : ∀ acc : List Char,
    extScan l acc = [] ∨ ∃ e, extScan l acc = '.' :: e := by
  induction l with
  | nil => intro acc; exact Or.inl rfl
  | cons c cs ih =>
    intro acc
    simp only [extScan]
    split
    · exact Or.inl rfl
    · split
      · exact Or.inr ⟨acc, rfl⟩
      · exact ih _

theorem imagePathFrom_slug (ext : List Char) (t : List Char) : ∀ b : Bool,
    SlugChars t → NoDoubleUnderscore t →
    (b = false → t.head? ≠ some '_') → t.getLast? ≠ some '_' →
    (b = true ∨ t ≠ []) → imagePathFrom b (t ++ ext) = imagePathFrom true ext := by
  induction t with
  | nil =>
    intro b _ _ _ _ h
    rcases h with h | h
    · subst h
      rfl
    · exact absurd rfl h
  | cons c cs ih =>
    intro b h1 h2 h3 h4 _
    have h1t : SlugChars cs := fun x hx => h1 x (List.mem_cons_of_mem _ hx)
    have h2t : NoDoubleUnderscore cs := List.Chain'.tail h2
    have h4t : cs.getLast? ≠ some '_' := by
      cases cs with
      | nil => simp
      | cons d ds => simpa [List.getLast?_cons_cons] using h4
    by_cases hc : isLowerAlnum c = true
    · have hstep : imagePathFrom b ((c :: cs) ++ ext) = imagePathFrom true (cs ++ ext) := by
        rw [List.cons_append, imagePathFrom, if_pos hc]
      rw [hstep]
      exact ih true h1t h2t (fun h => by cases h) h4t (Or.inl rfl)
    · have hcu : c = '_' := by
        rcases h1 c (List.mem_cons_self _ _) with h | h
        · exact absurd h hc
        · exact h
      have hb : b = true := by
        cases b with
        | true => rfl
        | false => exact absurd (by simp [hcu]) (h3 rfl)
      subst hb
      have hcs : cs ≠ [] := by
        intro h
        subst h
        apply h4
        simp [hcu]
      have hhead : cs.head? ≠ some '_' := by
        intro h
        cases cs with
        | nil => simp at h
        | cons d ds =>
          have hd : d = '_' := by simpa using h
          exact List.Chain'.rel_head h2 ⟨hcu, hd⟩
      have hstep : imagePathFrom true ((c :: cs) ++ ext) = imagePathFrom false (cs ++ ext) := by
        rw [List.cons_append, imagePathFrom, if_neg hc]
        simp [hcu]
      rw [hstep]
      exact ih false h1t h2t (fun _ => hhead) h4t (Or.inr hcs)

theorem imagePathFrom_dot (b : Bool) (e : List Char) :
    imagePathFrom b ('.' :: e) = (b && alnumFrom false e) := by
  have h1 : isLowerAlnum '.' = false := by decide
  rw [imagePathFrom, h1]
  cases b <;> simp

theorem slug_ext_matches (slug ext : List Char) (h1 : SlugChars slug)
    (h2 : NoDoubleUnderscore slug) (h3 : slug.head? ≠ some '_')
    (h4 : slug.getLast? ≠ some '_') (hext : ext = [] ∨ ∃ e, ext = '.' :: e) :
    imagePathFrom false (slug ++ ext) = true ↔
      slug ≠ [] ∧ ∃ e, ext = '.' :: e ∧ e ≠ [] ∧ ∀ c ∈ e, isLowerAlnum c = true := by
  by_cases hs : slug = []
  · subst hs
    rcases hext with he | ⟨e, he⟩
    · subst he
      simp [imagePathFrom]
    · subst he
      simp [imagePathFrom_dot]
  · rw [imagePathFrom_slug ext slug false h1 h2 (fun _ => h3) h4 (Or.inr hs)]
    rcases hext with he | ⟨e, he⟩
    · subst he
      simp [imagePathFrom]
    · subst he
      rw [imagePathFrom_dot]
      simp [alnumFrom_iff, hs]

/-- C8, as stated, fails: with `src` ending in `.JPG` the image path does not
match `[a-z0-9]+(_[a-z0-9]+)*\.[a-z0-9]+`; and for the `src` `/img.d/foo`,
whose final `.` lies in a directory name, the image path has no extension,
while the substring from the final `.` is `.d/foo`. -/
theorem image_path_counterexample :
    (ScrapeLOTRCard noTable
        (some { h1a := "The One Ring (1R1)", rows := [],
                imgSrc := some "/_media/foo.JPG", imgTitle := "" })
        "https://whatever.com").toOption.map
          (fun c => (c.ImagePath, matchesImagePath c.ImagePath))
      = some ("the_one_ring.JPG", false) ∧
    (ScrapeLOTRCard noTable
        (some { h1a := "The One Ring (1R1)", rows := [],
                imgSrc := some "/img.d/foo", imgTitle := "" })
        "https://whatever.com").toOption.map (fun c => c.ImagePath)
      = some "the_one_ring" ∧
    specExt "/img.d/foo".data = ".d/foo".data := by
  decide

/-- C8, amended: for every successfully extracted card, `image_path` is
`sanitizeFilename(title)` followed by `filepath.Ext(src)`, the suffix of
`src` beginning at the final `.` of its last `/`-separated element (empty
when that element has no `.`); it matches
`[a-z0-9]+(_[a-z0-9]+)*\.[a-z0-9]+` exactly when `sanitizeFilename(title)`
is non-empty and the extension is a `.` followed by one or more characters of
`[a-z0-9]`. -/
theorem image_path_shape (tbl : Char → Char) (doc : Document) (url : String)
    (card : CardData) (h : ScrapeLOTRCard tbl (some doc) url = .ok card) :
    ∃ src, doc.imgSrc = some src ∧
      card.ImagePath = sanitizeFilename tbl card.Title ++ ⟨filepathExt src.data⟩ ∧
      (matchesImagePath card.ImagePath = true ↔
        sanitizeFilename tbl card.Title ≠ "" ∧
          ∃ e, filepathExt src.data = '.' :: e ∧ e ≠ [] ∧
            ∀ c ∈ e, isLowerAlnum c = true) := by
  obtain ⟨doc1, m1, u, m3, src, hr, _, _, hsrc, hcard⟩ := scrape_ok_inv tbl _ url card h
  injection hr with hr
  subst hr
  subst hcard
  refine ⟨src, hsrc, rfl, ?_⟩
  obtain ⟨h1, h2, h3, h4⟩ := slug_shape (removeApostrophes (stringsToLower tbl
    (stringsTrimSpace (beforeParen (headingOf doc).data))))
  have key := slug_ext_matches _ (filepathExt src.data) h1 h2 h3 h4 (extScan_shape _ _)
  have hne : ∀ t : String, t ≠ "" ↔ t.data ≠ [] := fun t => not_congr (string_eq_empty_iff t)
  rw [hne]
  exact key

/-- The amended C8 at the canonical card, `src` `/_media/foo.jpg`. -/
theorem image_path_shape_witness :
    ∃ src, sampleDoc.imgSrc = some src ∧
      sampleCard.ImagePath = sanitizeFilename noTable sampleCard.Title ++ ⟨filepathExt src.data⟩ ∧
      (matchesImagePath sampleCard.ImagePath = true ↔
        sanitizeFilename noTable sampleCard.Title ≠ "" ∧
          ∃ e, filepathExt src.data = '.' :: e ∧ e ≠ [] ∧
            ∀ c ∈ e, isLowerAlnum c = true) :=
  image_path_shape noTable sampleDoc "https://whatever.com" sampleCard sampleDoc_scrape

/-! ## Whitespace normalization -/

theorem replaceRuns_congr (p q : Char → Bool) (rep : List Char) (l : List Char) :
    ∀ b : Bool, (∀ c ∈ l, p c = q c) → replaceRuns p rep b l = replaceRuns q rep b l := by
  induction l with
  | nil => intro b _; rfl
  | cons c cs ih =>
    intro b h
    have hc : p c = q c := h c (List.mem_cons_self _ _)
    have ht : ∀ x ∈ cs, p x = q x := fun x hx => h x (List.mem_cons_of_mem _ hx)
    simp only [replaceRuns, hc, ih true ht, ih false ht]

theorem replaceRuns_mem (p : Char → Bool) (r : Char) (l : List Char) : ∀ (b : Bool) (c : Char),
    c ∈ replaceRuns p [r] b l → c = r ∨ (c ∈ l ∧ p c = false) := by
  induction l with
  | nil => intro b c h; simp [replaceRuns] at h
  | cons a cs ih =>
    intro b c h
    simp only [replaceRuns] at h
    by_cases ha : p a = true
    · simp only [ha, if_true] at h
      cases b with
      | true =>
        simp only [if_true] at h
        rcases ih true c h with h1 | h1
        · exact Or.inl h1
        · exact Or.inr ⟨List.mem_cons_of_mem _ h1.1, h1.2⟩
      | false =>
        simp only [Bool.false_eq_true, if_false] at h
        rcases List.mem_append.1 h with h1 | h1
        · exact Or.inl (by simpa using h1)
        · rcases ih true c h1 with h2 | h2
          · exact Or.inl h2
          · exact Or.inr ⟨List.mem_cons_of_mem _ h2.1, h2.2⟩
    · simp only [ha, Bool.false_eq_true, if_false] at h
      rcases List.mem_cons.1 h with h1 | h1
      · subst h1
        exact Or.inr ⟨List.mem_cons_self _ _, by simpa using ha⟩
      · rcases ih false c h1 with h2 | h2
        · exact Or.inl h2
        · exact Or.inr ⟨List.mem_cons_of_mem _ h2.1, h2.2⟩

theorem dropWhile_congr_mem (p q : Char → Bool) (l : List Char) (h : ∀ c ∈ l, p c = q c) :
    l.dropWhile p = l.dropWhile q := by
  induction l with
  | nil => rfl
  | cons c cs ih =>
    have hc : p c = q c := h c (List.mem_cons_self _ _)
    simp only [List.dropWhile_cons, hc, ih (fun x hx => h x (List.mem_cons_of_mem _ hx))]

theorem trimFunc_congr (p q : Char → Bool) (l : List Char) (h : ∀ c ∈ l, p c = q c) :
    trimFunc p l = trimFunc q l := by
  unfold trimFunc List.rdropWhile
  rw [dropWhile_congr_mem p q l h]
  rw [dropWhile_congr_mem p q (l.dropWhile q).reverse]
  intro c hc
  exact h c ((List.dropWhile_suffix q).subset (List.mem_reverse.1 hc))

theorem isReSpace_unicode {c : Char} (h : isReSpace c = true) : isUnicodeSpace c = true := by
  simp only [isReSpace, Bool.or_eq_true, decide_eq_true_eq] at h
  simp only [isUnicodeSpace, Bool.or_eq_true, Bool.and_eq_true, decide_eq_true_eq]
  omega

theorem isSpecWhitespace_re {c : Char} (h : isSpecWhitespace c = true) : isReSpace c = true := by
  simp only [isSpecWhitespace, Bool.or_eq_true, decide_eq_true_eq] at h
  simp only [isReSpace, Bool.or_eq_true, decide_eq_true_eq]
  omega

/-- C10, as stated, fails: a form feed belongs to `\s` and is replaced by a
space, and a leading no-break space (U+00A0) or vertical tab is removed by
`strings.TrimSpace`; the specification keeps all three. -/
theorem normalizeSpaces_counterexample :
    normalizeSpaces "a\x0cb" = "a b" ∧ specNormalizeSpaces "a\x0cb" = "a\x0cb" ∧
    normalizeSpaces "\u00a0a" = "a" ∧ specNormalizeSpaces "\u00a0a" = "\u00a0a" ∧
    normalizeSpaces "\x0ba" = "a" ∧ specNormalizeSpaces "\x0ba" = "\x0ba" := by
  decide

/-- C10, amended: for every string whose only white-space characters (in the
sense of Go's `unicode.IsSpace`, which covers `\s`) are space, tab, newline
and carriage return, `normalizeSpaces` returns the string in which every
maximal run of these four characters is replaced by a single space and
leading and trailing spaces are removed. -/
theorem normalizeSpaces_spec (s : String)
    (h : ∀ c ∈ s.data, isUnicodeSpace c = true → isSpecWhitespace c = true) :
    normalizeSpaces s = specNormalizeSpaces s := by
  have hre : ∀ c ∈ s.data, isReSpace c = isSpecWhitespace c := by
    intro c hc
    cases h1 : isReSpace c with
    | true => exact (h c hc (isReSpace_unicode h1)).symm
    | false =>
      cases h2 : isSpecWhitespace c with
      | false => rfl
      | true => rw [isSpecWhitespace_re h2] at h1; cases h1
  have htrim : ∀ c ∈ replaceRuns isSpecWhitespace [' '] false s.data,
      isUnicodeSpace c = (c == ' ') := by
    intro c hc
    rcases replaceRuns_mem _ _ _ _ c hc with h1 | ⟨h1, h2⟩
    · subst h1
      decide
    · have hne : c ≠ ' ' := by
        intro he
        subst he
        revert h2
        decide
      have hu : isUnicodeSpace c = false := by
        cases h3 : isUnicodeSpace c with
        | false => rfl
        | true => rw [h c h1 h3] at h2; cases h2
      rw [hu]
      simpa using hne
  simp only [normalizeSpaces, specNormalizeSpaces, stringsTrimSpace]
  rw [replaceRuns_congr _ _ _ _ false hre, trimFunc_congr _ _ _ htrim]

/-- The amended C10 at the value of the whitespace scenario. -/
theorem normalizeSpaces_spec_witness :
    normalizeSpaces "  Line1\n\tLine2  " = specNormalizeSpaces "  Line1\n\tLine2  " ∧
    specNormalizeSpaces "  Line1\n\tLine2  " = "Line1 Line2" :=
  ⟨normalizeSpaces_spec "  Line1\n\tLine2  " (by decide), by decide⟩

/-! ## The Markdown file -/

theorem unlines_append (a b : List String) : unlines (a ++ b) = unlines a ++ unlines b := by
  induction a with
  | nil => simp [unlines]
  | cons x xs ih => simp [unlines, ih, String.append_assoc]

theorem foldl_propLine (order : Props) : ∀ b : String,
    order.foldl (fun b kv => b ++ (kv.1 ++ ": \"" ++ kv.2 ++ "\"\n")) b
      = b ++ unlines (order.map propLine) := by
  induction order with
  | nil => intro b; simp [unlines]
  | cons kv rest ih =>
    intro b
    have e : "\"\n" = "\"" ++ "\n" := by decide
    rw [List.foldl_cons, ih]
    simp only [List.map_cons, unlines, propLine, String.append_assoc, e]

theorem cardMarkdown_eq (card : CardData) (order : Props) :
    cardMarkdown card order = unlines (specLines card order) := by
  have e1 : "---\n" = "---" ++ "\n" := by decide
  have e2 : "\"\n" = "\"" ++ "\n" := by decide
  have e3 : "]]\"\n" = "]]\"" ++ "\n" := by decide
  have e4 : "amount:\n" = "amount:" ++ "\n" := by decide
  have e5 : "value:\n" = "value:" ++ "\n" := by decide
  have e6 : "sold_price:\n" = "sold_price:" ++ "\n" := by decide
  have e7 : "offer_price:\n" = "offer_price:" ++ "\n" := by decide
  have e8 : "total:\n" = "total:" ++ "\n" := by decide
  have e9 : "currency: €\n" = "currency: €" ++ "\n" := by decide
  have e10 : "---\n\n" = "---" ++ ("\n" ++ ("" ++ "\n")) := by decide
  simp only [cardMarkdown, specLines, unlines_append, foldl_propLine]
  simp only [unlines, e1, e2, e3, e4, e5, e6, e7, e8, e9, e10, String.append_assoc,
    String.append_empty, String.empty_append]

theorem line_in_unlines (pre : List String) (x : String) (post : List String)
    (hpre : pre ≠ []) :
    ∃ a b, unlines (pre ++ x :: post) = a ++ "\n" ++ x ++ "\n" ++ b := by
  refine ⟨unlines pre.dropLast ++ pre.getLast hpre, unlines post, ?_⟩
  conv_lhs => rw [← List.dropLast_append_getLast hpre]
  simp only [unlines_append, unlines, String.append_assoc, String.append_empty]

/-- C6: when `WriteCard` succeeds it writes one file, whose content is exactly
the line `---`, the four lines `title`, `set_no`, `card_no`, `photo` in this
order, one line `k: "v"` for each entry of `props` in the order in which the
map is visited (a permutation of its entries) and nothing else, the six lines
`amount:` to `currency: €`, then `---`, an empty line and `# <title>`.  Hence
every entry's line stands between two line breaks, and with empty `props` the
line `amount:` follows the `photo` line directly. -/
theorem writeCard_content (tbl : Char → Char) (w : World) (hw : w.RangeLawful)
    (baseDir : String) (card : CardData)
    (hok : (WriteCard tbl w baseDir card).2 ≠ none) :
    ∃ order : Props, order.Perm card.Props ∧
      (WriteCard tbl w baseDir card).1 =
        [Event.write (cardPath tbl baseDir card) (unlines (specLines card order))] ∧
      (∀ kv ∈ card.Props, ∃ a b,
        unlines (specLines card order) = a ++ "\n" ++ propLine kv ++ "\n" ++ b) ∧
      (card.Props = [] → unlines (specLines card order) =
        unlines ["---", "title: \"" ++ card.Title ++ "\"", "set_no: " ++ card.SetNo,
          "card_no: " ++ card.CardNo,
          "photo: \"[[./" ++ card.ImagePath ++ "|" ++ card.ImageName ++ "]]\"",
          "amount:", "value:", "sold_price:", "offer_price:", "total:", "currency: €",
          "---", "", "# " ++ card.Title]) := by
  refine ⟨w.rangeOrder card.Props, hw card.Props, ?_, ?_, ?_⟩
  · simp only [WriteCard] at hok ⊢
    split
    · rename_i h1
      simp [h1] at hok
    · rename_i h1
      split
      · rename_i h2
        simp [h1, h2] at hok
      · rw [cardMarkdown_eq]
  · intro kv hkv
    have hmem : kv ∈ w.rangeOrder card.Props := (hw card.Props).mem_iff.2 hkv
    obtain ⟨o1, o2, ho⟩ := List.append_of_mem hmem
    have hl := line_in_unlines
      (["---", "title: \"" ++ card.Title ++ "\"", "set_no: " ++ card.SetNo,
        "card_no: " ++ card.CardNo,
        "photo: \"[[./" ++ card.ImagePath ++ "|" ++ card.ImageName ++ "]]\""] ++
        o1.map propLine) (propLine kv)
      (o2.map propLine ++
        ["amount:", "value:", "sold_price:", "offer_price:", "total:", "currency: €", "---",
          "", "# " ++ card.Title]) (by simp)
    have hs : specLines card (w.rangeOrder card.Props) =
        (["---", "title: \"" ++ card.Title ++ "\"", "set_no: " ++ card.SetNo,
          "card_no: " ++ card.CardNo,
          "photo: \"[[./" ++ card.ImagePath ++ "|" ++ card.ImageName ++ "]]\""] ++
          o1.map propLine) ++ propLine kv ::
        (o2.map propLine ++
          ["amount:", "value:", "sold_price:", "offer_price:", "total:", "currency: €", "---",
            "", "# " ++ card.Title]) := by
      rw [ho]
      simp [specLines]
    rw [hs]
    exact hl
  · intro hp
    have hnil : w.rangeOrder card.Props = [] := by
      have := hw card.Props
      rw [hp] at this ⊢
      exact List.Perm.eq_nil this
    rw [hnil]
    rfl

theorem sampleWorld_lawful : sampleWorld.RangeLawful := fun m => List.reverse_perm m

/-- C6 at the canonical card, written under `output`. -/
theorem writeCard_content_witness :
    ∃ order : Props, order.Perm sampleCard.Props ∧
      (WriteCard noTable sampleWorld "output" sampleCard).1 =
        [Event.write (cardPath noTable "output" sampleCard)
          (unlines (specLines sampleCard order))] ∧
      (∀ kv ∈ sampleCard.Props, ∃ a b,
        unlines (specLines sampleCard order) = a ++ "\n" ++ propLine kv ++ "\n" ++ b) ∧
      (sampleCard.Props = [] → unlines (specLines sampleCard order) =
        unlines ["---", "title: \"" ++ sampleCard.Title ++ "\"",
          "set_no: " ++ sampleCard.SetNo, "card_no: " ++ sampleCard.CardNo,
          "photo: \"[[./" ++ sampleCard.ImagePath ++ "|" ++ sampleCard.ImageName ++ "]]\"",
          "amount:", "value:", "sold_price:", "offer_price:", "total:", "currency: €",
          "---", "", "# " ++ sampleCard.Title]) :=
  writeCard_content noTable sampleWorld sampleWorld_lawful "output" sampleCard (by decide)

/-! ## The driver -/

theorem loopBody_flow (tbl : Char → Char) (w : World) (baseURL : String) (set i : Nat) :
    (loopBody tbl w baseURL set i).2 = Flow.brk ↔
      (w.httpGet (pageURL baseURL set i) = .transportError ∨
        ∃ code body, w.httpGet (pageURL baseURL set i) = .status code body ∧
          (code ≠ 200 ∨ ∃ e, ScrapeLOTRCard tbl body (pageURL baseURL set i) = .error e)) := by
  simp only [loopBody]
  cases hget : w.httpGet (pageURL baseURL set i) with
  | transportError => simp
  | status code body =>
    by_cases hcode : code = 200
    · subst hcode
      cases hs : ScrapeLOTRCard tbl body (pageURL baseURL set i) with
      | error e =>
        constructor
        · intro _
          exact Or.inr ⟨200, body, rfl, Or.inr ⟨e, hs⟩⟩
        · intro _
          simp [hs]
      | ok card =>
        constructor
        · intro h
          exfalso
          simp only [ne_eq, not_true_eq_false, if_false, hs] at h
          split at h <;> simp at h
        · rintro (h | ⟨code, body1, h1, h2⟩)
          · cases h
          · injection h1 with h3 h4
            subst h3
            subst h4
            rcases h2 with h2 | ⟨e, h2⟩
            · exact absurd rfl h2
            · rw [hs] at h2
              cases h2
    · simp only [ne_eq, hcode, not_false_eq_true, if_true, true_iff]
      exact Or.inr ⟨code, body, rfl, Or.inl hcode⟩

/-- C4, as stated, fails: when the page of card 1 of section 1 answers 200
with a document without heading, the extractor fails and the next page the
driver requests is card 1 of section 2, not card 2 of section 1. -/
theorem extraction_failure_counterexample :
    ScrapeLOTRCard noTable (some noHeadingDoc) (pageURL "https://whatever.com" 1 1)
      = .error .h1NotFound ∧
    (step noTable (constWorld (some noHeadingDoc)) "https://whatever.com"
        DriverState.init).map (fun r => nextPage r.2) = some (some (2, 1)) ∧
    some (2, 1) ≠ some (1, 1 + 1) :=
  ⟨rfl, by decide, by decide⟩

/-- C4, amended: if the page GET of card `i` returns status 200 and the
extraction of that page fails, the driver leaves the section: nothing but the
page is requested and the next page request, if there is one, is for card 1 of
the next section.  A transport error, a non-200 response and a failed
extraction, and nothing else, end the iteration of a section. -/
theorem extraction_failure_ends_section (tbl : Char → Char) (w : World) (baseURL : String)
    (set : Nat) (rest : List Nat) (i : Nat) :
    (∀ body e, w.httpGet (pageURL baseURL set i) = .status 200 body →
      ScrapeLOTRCard tbl body (pageURL baseURL set i) = .error e →
      step tbl w baseURL ⟨set :: rest, i⟩ =
        some ([Event.get (pageURL baseURL set i)], ⟨rest, 1⟩) ∧
      nextPage ⟨rest, 1⟩ = rest.head?.map (fun s => (s, 1))) ∧
    ((∃ ev, step tbl w baseURL ⟨set :: rest, i⟩ = some (ev, ⟨rest, 1⟩)) ↔
      (w.httpGet (pageURL baseURL set i) = .transportError ∨
        ∃ code body, w.httpGet (pageURL baseURL set i) = .status code body ∧
          (code ≠ 200 ∨ ∃ e, ScrapeLOTRCard tbl body (pageURL baseURL set i) = .error e))) := by
  constructor
  · intro body e hget hfail
    constructor
    · simp [step, loopBody, hget, hfail]
    · cases rest <;> rfl
  · rw [← loopBody_flow]
    simp only [step]
    cases hflow : (loopBody tbl w baseURL set i).2 with
    | brk =>
      have hb : loopBody tbl w baseURL set i = ((loopBody tbl w baseURL set i).1, Flow.brk) := by
        rw [← hflow]
      rw [hb]
      simp
    | next =>
      have hb : loopBody tbl w baseURL set i = ((loopBody tbl w baseURL set i).1, Flow.next) := by
        rw [← hflow]
      rw [hb]
      simp

/-- The amended C4 at card 7 of section 2, a page whose heading has no
metadata token. -/
theorem extraction_failure_ends_section_witness :
    step noTable (constWorld (some legendaryDoc)) "https://whatever.com" ⟨[2, 3], 7⟩ =
      some ([Event.get (pageURL "https://whatever.com" 2 7)], ⟨[3], 1⟩) ∧
    nextPage ⟨[3], 1⟩ = [3].head?.map (fun s => (s, 1)) :=
  (extraction_failure_ends_section noTable (constWorld (some legendaryDoc))
    "https://whatever.com" 2 [3] 7).1
    (some legendaryDoc) (.metadataNotFound "Legendary Card") rfl rfl

/-- C1: the code departs from the claim.  With `BASE_URL` `https://whatever.com`
and the scraped `src` `/_media/foo.jpg`, the driver requests the page of card 1
of section 1 at `https://whatever.com/lotr01001` and then the image at the page
URL followed by `src`, not at `BASE_URL` followed by `src`. -/
theorem image_url_uses_page_url :
    (loopBody noTable sampleWorld "https://whatever.com" 1 1).1.take 2 =
      [Event.get "https://whatever.com/lotr01001",
       Event.get "https://whatever.com/lotr01001/_media/foo.jpg"] ∧
    "https://whatever.com/lotr01001/_media/foo.jpg" ≠
      "https://whatever.com" ++ "/_media/foo.jpg" := by
  decide

/-! ## Paths -/

theorem splitSlash_ne_nil (s : List Char) : splitSlash s ≠ [] := by
  cases s with
  | nil => simp [splitSlash]
  | cons c cs =>
    simp only [splitSlash]
    split
    · simp
    · split <;> simp

theorem splitSlash_append (a b : List Char) :
    splitSlash (a ++ '/' :: b) = splitSlash a ++ splitSlash b := by
  induction a with
  | nil => simp [splitSlash]
  | cons c cs ih =>
    by_cases hc : c = '/'
    · simp [splitSlash, hc, ih]
    · rw [List.cons_append, splitSlash, if_neg hc, ih, splitSlash, if_neg hc]
      cases hs : splitSlash cs with
      | nil => exact absurd hs (splitSlash_ne_nil cs)
      | cons h t => simp

theorem splitSlash_plain (s : List Char) (h : '/' ∉ s) : splitSlash s = [s] := by
  induction s with
  | nil => rfl
  | cons c cs ih =>
    have hc : c ≠ '/' := fun e => h (e ▸ List.mem_cons_self _ _)
    have hcs : '/' ∉ cs := fun e => h (List.mem_cons_of_mem _ e)
    simp [splitSlash, hc, ih hcs]

theorem splitSlash_no_slash (s : List Char) : ∀ e ∈ splitSlash s, '/' ∉ e := by
  induction s with
  | nil =>
    intro e he
    simp only [splitSlash, List.mem_singleton] at he
    subst he
    simp
  | cons c cs ih =>
    intro e he
    by_cases hc : c = '/'
    · simp only [splitSlash, hc, if_true, List.mem_cons] at he
      rcases he with he | he
      · subst he
        simp
      · exact ih e he
    · simp only [splitSlash, if_neg hc] at he
      cases hs : splitSlash cs with
      | nil => exact absurd hs (splitSlash_ne_nil cs)
      | cons h t =>
        rw [hs] at he ih
        simp only [List.mem_cons] at he
        rcases he with he | he
        · subst he
          intro hm
          rcases List.mem_cons.1 hm with h1 | h1
          · exact hc h1.symm
          · exact ih h (List.mem_cons_self _ _) h1
        · exact ih e (List.mem_cons_of_mem _ he)

theorem splitSlash_joinSlash (es : List (List Char)) (hne : es ≠ [])
    (h : ∀ e ∈ es, '/' ∉ e) : splitSlash (joinSlash es) = es := by
  induction es with
  | nil => exact absurd rfl hne
  | cons e rest ih =>
    cases rest with
    | nil => simpa [joinSlash] using splitSlash_plain e (h e (List.mem_cons_self _ _))
    | cons e1 rest1 =>
      have h1 := ih (by simp) (fun x hx => h x (List.mem_cons_of_mem _ hx))
      simp only [joinSlash]
      rw [splitSlash_append, h1, splitSlash_plain e (h e (List.mem_cons_self _ _))]
      rfl

theorem joinSlash_ne_nil (es : List (List Char)) (hne : es ≠ [])
    (h : ∀ e ∈ es, e ≠ []) : joinSlash es ≠ [] := by
  cases es with
  | nil => exact absurd rfl hne
  | cons e rest =>
    cases rest with
    | nil => simpa [joinSlash] using h e (List.mem_cons_self _ _)
    | cons e1 rest1 => simp [joinSlash]

theorem joinSlash_head (es : List (List Char))
    (h : ∀ e ∈ es, e ≠ [] ∧ '/' ∉ e) : (joinSlash es).head? ≠ some '/' := by
  cases es with
  | nil => simp [joinSlash]
  | cons e rest =>
    obtain ⟨h1, h2⟩ := h e (List.mem_cons_self _ _)
    cases e with
    | nil => exact absurd rfl h1
    | cons c cs =>
      have hc : c ≠ '/' := fun he => h2 (he ▸ List.mem_cons_self _ _)
      cases rest with
      | nil => simpa [joinSlash] using hc
      | cons e1 rest1 => simpa [joinSlash] using hc

theorem joinSlash_concat (es : List (List Char)) (e : List Char) (hne : es ≠ []) :
    joinSlash (es ++ [e]) = joinSlash es ++ '/' :: e := by
  induction es with
  | nil => exact absurd rfl hne
  | cons a rest ih =>
    cases rest with
    | nil => simp [joinSlash]
    | cons b rest1 =>
      have h1 : joinSlash ((b :: rest1) ++ [e]) = joinSlash (b :: rest1) ++ '/' :: e :=
        ih (by simp)
      show a ++ '/' :: joinSlash ((b :: rest1) ++ [e]) = (a ++ '/' :: joinSlash (b :: rest1)) ++ '/' :: e
      rw [h1]
      simp

theorem cleanStep_plain (rooted : Bool) (st : List (List Char)) (e : List Char)
    (h : PlainElem e) : cleanStep rooted st e = e :: st := by
  obtain ⟨h1, _, h3, h4⟩ := h
  simp [cleanStep, h1, h3, h4]

theorem stackOK_nil (rooted : Bool) : StackOK rooted [] := by
  cases rooted <;> simp [StackOK]

theorem stackOK_tail (rooted : Bool) (top : List Char) (rest : List (List Char))
    (h : StackOK rooted (top :: rest)) : StackOK rooted rest := by
  obtain ⟨h1, h2⟩ := h
  refine ⟨fun e he => h1 e (List.mem_cons_of_mem _ he), ?_⟩
  cases rooted with
  | true =>
    simp only [if_true] at h2 ⊢
    exact fun hm => h2 (List.mem_cons_of_mem _ hm)
  | false =>
    simp only [Bool.false_eq_true, if_false] at h2 ⊢
    exact List.Chain'.tail h2

theorem stackOK_push (rooted : Bool) (st : List (List Char)) (e : List Char)
    (h : StackOK rooted st) (he : PlainElem e) : StackOK rooted (e :: st) := by
  obtain ⟨h1, h2⟩ := h
  obtain ⟨e1, e2, e3, e4⟩ := he
  refine ⟨?_, ?_⟩
  · intro x hx
    rcases List.mem_cons.1 hx with hx | hx
    · subst hx
      exact ⟨e1, e2, e3⟩
    · exact h1 x hx
  · cases rooted with
    | true =>
      simp only [if_true] at h2 ⊢
      intro hm
      rcases List.mem_cons.1 hm with hx | hx
      · exact e4 hx.symm
      · exact h2 hx
    | false =>
      simp only [Bool.false_eq_true, if_false] at h2 ⊢
      rw [List.chain'_cons']
      exact ⟨fun y _ hy => absurd hy e4, h2⟩

theorem cleanStep_ok (rooted : Bool) (st : List (List Char)) (e : List Char)
    (h : StackOK rooted st) (he : '/' ∉ e) : StackOK rooted (cleanStep rooted st e) := by
  unfold cleanStep
  split
  · exact h
  · rename_i hne
    have hne1 : e ≠ [] := fun x => hne (Or.inl x)
    have hne2 : e ≠ ['.'] := fun x => hne (Or.inr x)
    split
    · rename_i hdd
      cases st with
      | nil =>
        cases rooted with
        | true => exact stackOK_nil true
        | false =>
          simp only [Bool.false_eq_true, if_false]
          refine ⟨?_, ?_⟩
          · intro x hx
            simp only [List.mem_singleton] at hx
            subst hx
            exact ⟨hne1, he, hne2⟩
          · simp
      | cons top rest =>
        simp only []
        split
        · rename_i htop
          refine ⟨?_, ?_⟩
          · intro x hx
            rcases List.mem_cons.1 hx with hx | hx
            · subst hx
              exact ⟨hne1, he, hne2⟩
            · exact h.1 x hx
          · cases rooted with
            | true =>
              have h2 := h.2
              simp only [if_true] at h2
              exact absurd (htop ▸ List.mem_cons_self _ _) h2
            | false =>
              have h2 := h.2
              simp only [Bool.false_eq_true, if_false] at h2 ⊢
              rw [List.chain'_cons']
              refine ⟨?_, h2⟩
              intro y hy _
              simp only [List.head?_cons, Option.mem_def, Option.some.injEq] at hy
              rw [← hy]
              exact htop
        · exact stackOK_tail rooted top rest h
    · rename_i hdd
      exact stackOK_push rooted st e h ⟨hne1, he, hne2, hdd⟩

theorem foldl_cleanStep_ok (rooted : Bool) (es : List (List Char))
    (h : ∀ e ∈ es, '/' ∉ e) : ∀ st, StackOK rooted st →
    StackOK rooted (es.foldl (cleanStep rooted) st) := by
  induction es with
  | nil => intro st hst; exact hst
  | cons e rest ih =>
    intro st hst
    simp only [List.foldl_cons]
    exact ih (fun x hx => h x (List.mem_cons_of_mem _ hx)) _
      (cleanStep_ok rooted st e hst (h e (List.mem_cons_self _ _)))

theorem clean_stack_ok (rooted : Bool) (r : List Char) :
    StackOK rooted ((splitSlash r).foldl (cleanStep rooted) []) :=
  foldl_cleanStep_ok rooted _ (splitSlash_no_slash r) [] (stackOK_nil rooted)

theorem reparse_stack (rooted : Bool) (st : List (List Char)) (h : StackOK rooted st) :
    st.reverse.foldl (cleanStep rooted) [] = st := by
  induction st with
  | nil => rfl
  | cons top rest ih =>
    rw [List.reverse_cons, List.foldl_append, ih (stackOK_tail rooted top rest h)]
    simp only [List.foldl_cons, List.foldl_nil]
    obtain ⟨h1, h2, h3⟩ := h.1 top (List.mem_cons_self _ _)
    by_cases hdd : top = ['.', '.']
    · cases rooted with
      | true =>
        have h4 := h.2
        simp only [if_true] at h4
        exact absurd (hdd ▸ List.mem_cons_self _ _) h4
      | false =>
        have h4 := h.2
        simp only [Bool.false_eq_true, if_false] at h4
        cases rest with
        | nil => simp [cleanStep, hdd]
        | cons t r =>
          have ht : t = ['.', '.'] := List.Chain'.rel_head h4 hdd
          simp [cleanStep, hdd, ht]
    · exact cleanStep_plain rooted rest top ⟨h1, h2, h3, hdd⟩

theorem renderPath_ne_nil (rooted : Bool) (st : List (List Char)) :
    renderPath rooted st ≠ [] := by
  unfold renderPath
  cases rooted with
  | true => simp
  | false =>
    simp only [Bool.false_eq_true, if_false]
    split
    · simp
    · assumption

theorem stack_body_ne_nil (rooted : Bool) (st : List (List Char)) (h : StackOK rooted st)
    (hne : st ≠ []) : joinSlash st.reverse ≠ [] :=
  joinSlash_ne_nil _ (by simpa using hne)
    (fun e he => (h.1 e (List.mem_reverse.1 he)).1)

theorem renderPath_rooted (rooted : Bool) (st : List (List Char)) (h : StackOK rooted st) :
    ((renderPath rooted st).head? == some '/') = rooted := by
  unfold renderPath
  cases rooted with
  | true => simp
  | false =>
    simp only [Bool.false_eq_true, if_false]
    split
    · decide
    · have := joinSlash_head st.reverse
        (fun e he => ⟨(h.1 e (List.mem_reverse.1 he)).1, (h.1 e (List.mem_reverse.1 he)).2.1⟩)
      simpa using this

theorem parse_render (rooted : Bool) (st : List (List Char)) (h : StackOK rooted st) :
    (splitSlash (renderPath rooted st)).foldl (cleanStep rooted) [] = st := by
  by_cases hst : st = []
  · subst hst
    cases rooted <;> simp [renderPath, joinSlash, splitSlash, cleanStep]
  · have hbody := stack_body_ne_nil rooted st h hst
    have hsplit : splitSlash (joinSlash st.reverse) = st.reverse :=
      splitSlash_joinSlash _ (by simpa using hst)
        (fun e he => (h.1 e (List.mem_reverse.1 he)).2.1)
    unfold renderPath
    cases rooted with
    | true =>
      simp only [if_true]
      rw [splitSlash, if_pos rfl, hsplit, List.foldl_cons]
      have h0 : cleanStep true [] [] = [] := by simp [cleanStep]
      rw [h0]
      exact reparse_stack true st h
    | false =>
      simp only [Bool.false_eq_true, if_false, if_neg hbody]
      rw [hsplit]
      exact reparse_stack false st h

theorem clean_append_plain (r f : List Char) (hr : r ≠ []) (hf : PlainElem f) :
    filepathClean (r ++ '/' :: f) =
      renderPath (r.head? == some '/')
        (f :: (splitSlash r).foldl (cleanStep (r.head? == some '/')) []) := by
  have hhead : (r ++ '/' :: f).head? = r.head? := by
    cases r with
    | nil => exact absurd rfl hr
    | cons c cs => rfl
  unfold filepathClean
  simp only [hhead]
  rw [splitSlash_append, splitSlash_plain f hf.2.1, List.foldl_append]
  simp only [List.foldl_cons, List.foldl_nil]
  rw [cleanStep_plain _ _ f hf]

theorem clean_render_append (rooted : Bool) (st : List (List Char)) (f : List Char)
    (h : StackOK rooted st) (hf : PlainElem f) :
    filepathClean (renderPath rooted st ++ '/' :: f) = renderPath rooted (f :: st) := by
  rw [clean_append_plain _ f (renderPath_ne_nil rooted st) hf, renderPath_rooted rooted st h,
    parse_render rooted st h]

theorem plain_head (e : List Char) (h : PlainElem e) : (e.head? == some '/') = false := by
  obtain ⟨h1, h2, _, _⟩ := h
  cases e with
  | nil => exact absurd rfl h1
  | cons c cs =>
    have hc : c ≠ '/' := fun he => h2 (he ▸ List.mem_cons_self _ _)
    simpa using hc

theorem clean_plain (e : List Char) (h : PlainElem e) : filepathClean e = e := by
  unfold filepathClean
  rw [plain_head e h, splitSlash_plain e h.2.1]
  simp only [List.foldl_cons, List.foldl_nil]
  rw [cleanStep_plain _ _ e h]
  simp [renderPath, joinSlash, h.1]

/-- The two nested `filepath.Join` calls of `WriteCard` return what one call
on the three elements returns. -/
theorem join_join (root set file : List Char) (hs : PlainElem set) (hf : PlainElem file) :
    filepathJoin [filepathJoin [root, set], file] = filepathJoin [root, set, file] := by
  by_cases hr : root = []
  · subst hr
    have h1 : filepathJoin [[], set] = set := by
      simp [filepathJoin, hs.1, joinSlash, clean_plain set hs]
    rw [h1]
    simp [filepathJoin, hs.1]
  · have h1 : filepathJoin [root, set] =
        renderPath (root.head? == some '/')
          (set :: (splitSlash root).foldl (cleanStep (root.head? == some '/')) []) := by
      simp only [filepathJoin, if_neg hr, joinSlash]
      exact clean_append_plain root set hr hs
    have hok := stackOK_push _ _ set (clean_stack_ok (root.head? == some '/') root) hs
    rw [h1]
    simp only [filepathJoin, if_neg hr, if_neg (renderPath_ne_nil _ _), joinSlash]
    rw [clean_render_append _ _ file hok hf]
    have h2 : root ++ '/' :: (set ++ '/' :: file) = (root ++ '/' :: set) ++ '/' :: file := by
      simp
    have hhead : (root ++ '/' :: set).head? = root.head? := by
      cases root with
      | nil => exact absurd rfl hr
      | cons c cs => rfl
    rw [h2, clean_append_plain _ file (by simp) hf, hhead, splitSlash_append,
      splitSlash_plain set hs.2.1, List.foldl_append]
    simp only [List.foldl_cons, List.foldl_nil]
    rw [cleanStep_plain _ _ set hs]

/-- For a root that `filepath.Clean` leaves unchanged and that is neither
`.` nor `/`, the nested joins return the root, the directory and the file name
separated by single slashes. -/
theorem join_literal (root set file : List Char) (hclean : filepathClean root = root)
    (h1 : root ≠ ['.']) (h2 : root ≠ ['/']) (hs : PlainElem set) (hf : PlainElem file) :
    filepathJoin [filepathJoin [root, set], file] = root ++ '/' :: (set ++ '/' :: file) := by
  have hr : root ≠ [] := by
    intro h
    subst h
    revert hclean
    decide
  have hok := clean_stack_ok (root.head? == some '/') root
  have hst : (splitSlash root).foldl (cleanStep (root.head? == some '/')) [] ≠ [] := by
    intro h
    unfold filepathClean at hclean
    simp only [h] at hclean
    cases hrt : (root.head? == some '/') with
    | true =>
      rw [hrt] at hclean
      exact h2 (by rw [← hclean]; rfl)
    | false =>
      rw [hrt] at hclean
      exact h1 (by rw [← hclean]; rfl)
  have hbody := stack_body_ne_nil _ _ hok hst
  rw [join_join root set file hs hf]
  simp only [filepathJoin, if_neg hr, joinSlash]
  have h3 : root ++ '/' :: (set ++ '/' :: file) = (root ++ '/' :: set) ++ '/' :: file := by
    simp
  have hhead : (root ++ '/' :: set).head? = root.head? := by
    cases root with
    | nil => exact absurd rfl hr
    | cons c cs => rfl
  rw [h3, clean_append_plain _ file (by simp) hf, hhead, splitSlash_append,
    splitSlash_plain set hs.2.1, List.foldl_append]
  simp only [List.foldl_cons, List.foldl_nil]
  rw [cleanStep_plain _ _ set hs]
  have hroot : renderPath (root.head? == some '/')
      ((splitSlash root).foldl (cleanStep (root.head? == some '/')) []) = root := hclean
  generalize (splitSlash root).foldl (cleanStep (root.head? == some '/')) [] = st at *
  have hj : joinSlash (file :: set :: st).reverse
      = joinSlash st.reverse ++ '/' :: (set ++ '/' :: file) := by
    have e1 : (file :: set :: st).reverse = (st.reverse ++ [set]) ++ [file] := by simp
    rw [e1, joinSlash_concat _ file (by simp), joinSlash_concat _ set (by simpa using hst)]
    simp
  unfold renderPath at hroot ⊢
  simp only [hj]
  cases hrt : (root.head? == some '/') with
  | true =>
    rw [hrt] at hroot
    simp only [if_true] at hroot ⊢
    rw [← List.cons_append, hroot]
    simp
  | false =>
    rw [hrt] at hroot
    simp only [Bool.false_eq_true, if_false, if_neg hbody] at hroot ⊢
    rw [hroot]
    simp

theorem isDigit_not_sep {c : Char} (h : isDigit c = true) : c ≠ '/' ∧ c ≠ '.' := by
  constructor <;> (intro he; subst he; revert h; decide)

theorem plain_of_digit_head (d : Char) (rest : List Char) (hd : isDigit d = true)
    (hs : '/' ∉ d :: rest) : PlainElem (d :: rest) := by
  have hdot := (isDigit_not_sep hd).2
  refine ⟨by simp, hs, ?_, ?_⟩
  · intro h
    injection h with h1 _
    exact hdot h1
  · intro h
    injection h with h1 _
    exact hdot h1

theorem slug_no_slash (tbl : Char → Char) (t : String) :
    '/' ∉ (sanitizeFilename tbl t).data := by
  obtain ⟨h1, _, _, _⟩ := slug_shape (removeApostrophes (stringsToLower tbl t.data))
  intro hm
  rcases h1 _ hm with h | h
  · revert h
    decide
  · revert h
    decide

theorem digits_no_slash (l : List Char) (h : l.all isDigit = true) : '/' ∉ l := by
  intro hm
  have := (List.all_eq_true.1 h) _ hm
  revert this
  decide

theorem cardFilename_data (tbl : Char → Char) (card : CardData) :
    (cardFilename tbl card).data =
      card.SetNo.data ++ (card.CardNo.data ++ ('_' :: ((sanitizeFilename tbl card.Title).data
        ++ ['.', 'm', 'd']))) := by
  simp only [cardFilename, String.data_append, List.append_assoc]
  rfl

theorem two_chars (l : List Char) (h : l.length = 2) : ∃ a b, l = [a, b] := by
  match l, h with
  | [a, b], _ => exact ⟨a, b, rfl⟩

theorem setNo_plain (card : CardData) (hset : matchesDigits 2 card.SetNo = true) :
    PlainElem card.SetNo.data := by
  simp only [matchesDigits, Bool.and_eq_true, beq_iff_eq] at hset
  obtain ⟨hlen, hall⟩ := hset
  have hns := digits_no_slash _ hall
  obtain ⟨a, b, hd⟩ := two_chars _ hlen
  rw [hd] at hall hns ⊢
  exact plain_of_digit_head a [b] ((List.all_eq_true.1 hall) a (List.mem_cons_self _ _)) hns

theorem cardFilename_plain (tbl : Char → Char) (card : CardData)
    (hset : matchesDigits 2 card.SetNo = true) (hcard : matchesDigits 3 card.CardNo = true) :
    PlainElem (cardFilename tbl card).data := by
  simp only [matchesDigits, Bool.and_eq_true, beq_iff_eq] at hset hcard
  obtain ⟨hlen, hall⟩ := hset
  have hns := digits_no_slash _ hall
  have hnc := digits_no_slash _ hcard.2
  have hsl := slug_no_slash tbl card.Title
  have hno : '/' ∉ card.SetNo.data ++ (card.CardNo.data ++
      ('_' :: ((sanitizeFilename tbl card.Title).data ++ ['.', 'm', 'd']))) := by
    simp only [List.mem_append, List.mem_cons, not_or]
    exact ⟨hns, hnc, by decide, hsl, by decide, by decide, by decide, by simp⟩
  rw [cardFilename_data]
  obtain ⟨a, b, hd⟩ := two_chars _ hlen
  rw [hd] at hall hno ⊢
  exact plain_of_digit_head a _ ((List.all_eq_true.1 hall) a (List.mem_cons_self _ _)) hno

/-- C5, as stated, fails: with the empty root `WriteCard` returns the relative
path `01/01001_...md`, not `/01/01001_...md`, and with the root `out/` it
returns `out/01/01001_...md`, not `out//01/01001_...md`. -/
theorem writeCard_path_counterexample :
    (WriteCard noTable sampleWorld "" sampleCard).2 =
      some "01/01001_the_one_ring_isildurs_bane.md" ∧
    "01/01001_the_one_ring_isildurs_bane.md" ≠
      "" ++ "/" ++ sampleCard.SetNo ++ "/" ++ cardFilename noTable sampleCard ∧
    (WriteCard noTable sampleWorld "out/" sampleCard).2 =
      some "out/01/01001_the_one_ring_isildurs_bane.md" ∧
    "out/01/01001_the_one_ring_isildurs_bane.md" ≠
      "out/" ++ "/" ++ sampleCard.SetNo ++ "/" ++ cardFilename noTable sampleCard := by
  decide

/-- C5, amended: for every output root and every card whose `set_no` is 2
digits and `card_no` is 3 digits, `WriteCard` on success returns
`filepath.Join(root, set_no, <set_no><card_no>_<sanitizeFilename(title)>.md)`,
a lexically cleaned path; for a root that is already clean and is neither `.`
nor `/` this is the text `<root>/<set_no>/<set_no><card_no>_<slug>.md`. -/
theorem writeCard_path (tbl : Char → Char) (w : World) (baseDir : String) (card : CardData)
    (hset : matchesDigits 2 card.SetNo = true) (hcard : matchesDigits 3 card.CardNo = true)
    (hok : (WriteCard tbl w baseDir card).2 ≠ none) :
    (WriteCard tbl w baseDir card).2 =
      some ⟨filepathJoin [baseDir.data, card.SetNo.data, (cardFilename tbl card).data]⟩ ∧
    (filepathClean baseDir.data = baseDir.data → baseDir ≠ "." → baseDir ≠ "/" →
      (WriteCard tbl w baseDir card).2 =
        some (baseDir ++ "/" ++ card.SetNo ++ "/" ++ cardFilename tbl card)) := by
  have hs := setNo_plain card hset
  have hf := cardFilename_plain tbl card hset hcard
  have hres : (WriteCard tbl w baseDir card).2 = some (cardPath tbl baseDir card) := by
    simp only [WriteCard] at hok ⊢
    split
    · rename_i h1
      simp [h1] at hok
    · rename_i h1
      split
      · rename_i h2
        simp [h1, h2] at hok
      · rfl
  refine ⟨?_, ?_⟩
  · rw [hres]
    simp only [cardPath]
    rw [join_join _ _ _ hs hf]
  · intro hclean h1 h2
    rw [hres]
    simp only [cardPath]
    have h1l : baseDir.data ≠ ['.'] := fun h => h1 (String.ext h)
    have h2l : baseDir.data ≠ ['/'] := fun h => h2 (String.ext h)
    rw [join_literal _ _ _ hclean h1l h2l hs hf]
    congr 1
    apply String.ext
    simp only [String.data_append, List.append_assoc]
    rfl

/-- The amended C5 at the canonical card and the root `output` of the driver. -/
theorem writeCard_path_witness :
    (WriteCard noTable sampleWorld "output" sampleCard).2 =
      some ⟨filepathJoin ["output".data, sampleCard.SetNo.data,
        (cardFilename noTable sampleCard).data]⟩ ∧
    (filepathClean "output".data = "output".data → "output" ≠ "." → "output" ≠ "/" →
      (WriteCard noTable sampleWorld "output" sampleCard).2 =
        some ("output" ++ "/" ++ sampleCard.SetNo ++ "/" ++ cardFilename noTable sampleCard)) :=
  writeCard_path noTable sampleWorld "output" sampleCard (by decide) (by decide) (by decide)

end LotrCrawler
